import Mathlib

/-!
Verification of the roommate-matching search engines of the DMU repository
(notebook 3_Exhaustive_Algorithm: the numba-accelerated exhaustive search
and the branch-and-bound search).

The Python code is shallowly embedded:
* compatibility scores (`float64` in the source) are modelled as exact
  rationals `ℚ`;
* the `np.int64` bitmask of unmatched students is modelled as `ℕ` together
  with the bit operations the code performs (the separate definition
  `fullMask64` models the 64-bit wrap-around of `np.int64` where that
  matters);
* the mutable containers (`best_score`, `best_pairs`, `memo`,
  `allocations`) are threaded explicitly through the recursion as a state
  record;
* the code contains no `raise` statement, no randomness and no
  input validation, so every embedded entry point is a total function.
-/

/-- Clear bit `i` of `m`.  Embeds the Python expression `mask & ~(1 << i)`,
using the bitwise identity `a & ~b = a ^^^ (a &&& b)` because `ℕ` has no
bitwise complement. -/
def clearBit (m i : ℕ) : ℕ := m ^^^ (m &&& (1 <<< i))

theorem testBit_clearBit (m i k : ℕ) :
    (clearBit m i).testBit k = if k = i then false else m.testBit k := by
  unfold clearBit
  rw [Nat.shiftLeft_eq, one_mul, Nat.testBit_xor, Nat.testBit_and]
  by_cases h : k = i
  · subst h
    rw [Nat.testBit_two_pow_self]
    cases hb : m.testBit k <;> simp [hb]
  · rw [Nat.testBit_two_pow_of_ne (fun he => h he.symm)]
    cases hb : m.testBit k <;> simp [hb, h]

theorem clearBit_eq_of_testBit_eq_false (m i : ℕ) (h : m.testBit i = false) :
    clearBit m i = m := by
  refine Nat.eq_of_testBit_eq fun k => ?_
  rw [testBit_clearBit]
  by_cases hk : k = i
  · simp [hk, h]
  · simp [hk]

theorem clearBit_lt (m i : ℕ) (h : m.testBit i = true) : clearBit m i < m := by
  refine Nat.lt_of_testBit i ?_ h fun j hj => ?_
  · rw [testBit_clearBit]
    simp
  · rw [testBit_clearBit]
    simp [Nat.ne_of_gt hj]

theorem clearBit_le (m i : ℕ) : clearBit m i ≤ m := by
  by_cases h : m.testBit i = true
  · exact le_of_lt (clearBit_lt m i h)
  · rw [clearBit_eq_of_testBit_eq_false m i (by simpa using h)]

theorem clearBit_ne_zero_iff (m i : ℕ) :
    ∀ k, (clearBit m i).testBit k = true → m.testBit k = true := by
  intro k hk
  rw [testBit_clearBit] at hk
  by_cases h : k = i <;> simp [h] at hk
  exact hk

/-- Index of the lowest set bit of `m` (junk value `0` for `m = 0`). -/
def lowestSetBit (m : ℕ) : ℕ :=
  if h : m = 0 then 0
  else if m % 2 = 1 then 0
  else lowestSetBit (m / 2) + 1
termination_by m
decreasing_by exact Nat.div_lt_self (Nat.pos_of_ne_zero h) one_lt_two

theorem testBit_lowestSetBit (m : ℕ) (h : m ≠ 0) :
    m.testBit (lowestSetBit m) = true := by
  induction m using Nat.strong_induction_on with
  | _ m ih =>
    rw [lowestSetBit]
    rw [dif_neg h]
    by_cases hodd : m % 2 = 1
    · rw [if_pos hodd, Nat.testBit_zero]
      simp [hodd]
    · rw [if_neg hodd, Nat.testBit_succ]
      have hhalf : m / 2 ≠ 0 := by omega
      exact ih (m / 2) (Nat.div_lt_self (Nat.pos_of_ne_zero h) one_lt_two) hhalf

theorem lowestSetBit_min (m : ℕ) : ∀ k, k < lowestSetBit m → m.testBit k = false := by
  induction m using Nat.strong_induction_on with
  | _ m ih =>
    intro k hk
    rw [lowestSetBit] at hk
    by_cases h : m = 0
    · simp [h]
    rw [dif_neg h] at hk
    by_cases hodd : m % 2 = 1
    · rw [if_pos hodd] at hk
      omega
    · rw [if_neg hodd] at hk
      match k with
      | 0 =>
        rw [Nat.testBit_zero]
        simp [hodd]
      | k + 1 =>
        rw [Nat.testBit_succ]
        exact ih (m / 2) (Nat.div_lt_self (Nat.pos_of_ne_zero h) one_lt_two) k
          (by omega)

/-- Embeds the numba helper `get_bit_length` (`while x: length += 1; x >>= 1`). -/
def get_bit_length (x : ℕ) : ℕ :=
  if h : x = 0 then 0
  else get_bit_length (x / 2) + 1
termination_by x
decreasing_by exact Nat.div_lt_self (Nat.pos_of_ne_zero h) one_lt_two

theorem get_bit_length_two_pow (t : ℕ) : get_bit_length (2 ^ t) = t + 1 := by
  induction t with
  | zero =>
    rw [get_bit_length]
    norm_num
    rw [get_bit_length]
    simp
  | succ t ih =>
    rw [get_bit_length]
    rw [dif_neg (by positivity)]
    have : 2 ^ (t + 1) / 2 = 2 ^ t := by
      rw [pow_succ]
      omega
    rw [this, ih]

/-- Embeds the int64 bit trick `mask & -mask`: in two's complement it
isolates the lowest set bit, i.e. it equals `2 ^ lowestSetBit mask` for
`mask ≠ 0`.  We embed it by that value directly (for `mask = 0` the trick
yields `0`, which the code never uses). -/
def lowbit (m : ℕ) : ℕ := if m = 0 then 0 else 2 ^ lowestSetBit m

/-- The pivot of the exhaustive search:
`i = get_bit_length(mask & -mask) - 1`. -/
def pivot_exh (m : ℕ) : ℕ := get_bit_length (lowbit m) - 1

theorem pivot_exh_eq (m : ℕ) (h : m ≠ 0) : pivot_exh m = lowestSetBit m := by
  unfold pivot_exh lowbit
  rw [if_neg h, get_bit_length_two_pow]
  omega

theorem testBit_pivot_exh (m : ℕ) (h : m ≠ 0) : m.testBit (pivot_exh m) = true := by
  rw [pivot_exh_eq m h]
  exact testBit_lowestSetBit m h

/-- The ascending list of set-bit indices of `m`.  Embeds the candidate
loop of `exhaustive_search_njit`:
`while candidate: j = get_bit_length(candidate & -candidate) - 1;
candidate = candidate & ~(1 << j)`. -/
def bitsAsc (m : ℕ) : List ℕ :=
  if h : m = 0 then []
  else pivot_exh m :: bitsAsc (clearBit m (pivot_exh m))
termination_by m
decreasing_by exact clearBit_lt m (pivot_exh m) (testBit_pivot_exh m h)

theorem mem_bitsAsc (m : ℕ) : ∀ k, k ∈ bitsAsc m ↔ m.testBit k = true := by
  induction m using Nat.strong_induction_on with
  | _ m ih =>
    intro k
    rw [bitsAsc]
    by_cases h : m = 0
    · simp [h]
    rw [dif_neg h]
    have hlt := clearBit_lt m (pivot_exh m) (testBit_pivot_exh m h)
    constructor
    · intro hk
      rcases List.mem_cons.mp hk with hk | hk
      · subst hk
        exact testBit_pivot_exh m h
      · exact clearBit_ne_zero_iff m (pivot_exh m) k ((ih _ hlt k).mp hk)
    · intro hk
      by_cases hkp : k = pivot_exh m
      · subst hkp
        exact List.mem_cons_self _ _
      · refine List.mem_cons_of_mem _ ((ih _ hlt k).mpr ?_)
        rw [testBit_clearBit, if_neg hkp]
        exact hk

theorem bitsAsc_zero : bitsAsc 0 = [] := by rw [bitsAsc]; simp

/-- The while-loop pivot search of the branch-and-bound `search`:
`i = 0; while i < n: if mask & (1 << i): break; i += 1`. -/
def pivotLoop (mask n i : ℕ) : ℕ :=
  if h : i < n then
    (if mask.testBit i then i else pivotLoop mask n (i + 1))
  else i
termination_by n - i
decreasing_by omega

/-- The pivot of the branch-and-bound search (lowest-indexed unmatched
student below `n`; yields `n` when no bit below `n` is set). -/
def pivot (mask n : ℕ) : ℕ := pivotLoop mask n 0

theorem pivotLoop_eq (mask n t : ℕ) (ht : mask.testBit t = true) (htn : t < n)
    (hmin : ∀ k, k < t → mask.testBit k = false) :
    ∀ i, i ≤ t → pivotLoop mask n i = t := by
  have key : ∀ d i, t - i = d → i ≤ t → pivotLoop mask n i = t := by
    intro d
    induction d with
    | zero =>
      intro i hd hi
      have : i = t := by omega
      subst this
      rw [pivotLoop, dif_pos htn, if_pos ht]
    | succ d ihd =>
      intro i hd hi
      have hit : i < t := by omega
      rw [pivotLoop, dif_pos (by omega), if_neg (by simp [hmin i hit])]
      exact ihd (i + 1) (by omega) (by omega)
  exact fun i hi => key (t - i) i rfl hi

theorem testBit_lt_of_lt_two_pow (m k n : ℕ) (hm : m < 2 ^ n)
    (hk : m.testBit k = true) : k < n := by
  by_contra hnk
  have h2 : (2 : ℕ) ^ n ≤ 2 ^ k := Nat.pow_le_pow_right (by norm_num) (by omega)
  have := Nat.testBit_eq_false_of_lt (Nat.lt_of_lt_of_le hm h2)
  rw [this] at hk
  exact Bool.false_ne_true hk

theorem pivot_eq_lowestSetBit (mask n : ℕ) (h0 : mask ≠ 0) (hlt : mask < 2 ^ n) :
    pivot mask n = lowestSetBit mask := by
  have ht := testBit_lowestSetBit mask h0
  exact pivotLoop_eq mask n (lowestSetBit mask) ht
    (testBit_lt_of_lt_two_pow mask _ n hlt ht) (lowestSetBit_min mask) 0 (Nat.zero_le _)

theorem testBit_pivot (mask n : ℕ) (h0 : mask ≠ 0) (hlt : mask < 2 ^ n) :
    mask.testBit (pivot mask n) = true := by
  rw [pivot_eq_lowestSetBit mask n h0 hlt]
  exact testBit_lowestSetBit mask h0

/-- The full state of `n` unmatched students: `(1 << n) - 1` (ideal,
width-unbounded value; see `fullMask64` for the `np.int64` wrap). -/
def fullMask (n : ℕ) : ℕ := 2 ^ n - 1

/-- The value actually stored by `np.int64((1 << n) - 1)`, modelling the
64-bit two's-complement wrap-around: the retained bit pattern is the value
modulo `2 ^ 64`. -/
def fullMask64 (n : ℕ) : ℕ := (2 ^ n - 1) % 2 ^ 64

theorem fullMask_lt (n : ℕ) : fullMask n < 2 ^ n :=
  Nat.sub_lt (Nat.pos_pow_of_pos n (by norm_num)) one_pos

theorem testBit_fullMask (n k : ℕ) : (fullMask n).testBit k = decide (k < n) :=
  Nat.testBit_two_pow_sub_one n k

/-- Number of students contained in the state `mask` (the popcount of the
low `n` bits). -/
def maskCard (n mask : ℕ) : ℕ :=
  ((Finset.range n).filter (fun k => mask.testBit k = true)).card

theorem maskCard_filter_clearBit (n mask k : ℕ) (hk : mask.testBit k = true)
    (hkn : k < n) :
    (Finset.range n).filter (fun j => (clearBit mask k).testBit j = true) =
      ((Finset.range n).filter (fun j => mask.testBit j = true)).erase k := by
  ext j
  simp only [Finset.mem_filter, Finset.mem_erase, Finset.mem_range, testBit_clearBit]
  by_cases hj : j = k
  · simp [hj]
  · simp [hj]

theorem maskCard_clearBit (n mask k : ℕ) (hk : mask.testBit k = true) (hkn : k < n) :
    maskCard n (clearBit mask k) = maskCard n mask - 1 := by
  unfold maskCard
  rw [maskCard_filter_clearBit n mask k hk hkn]
  exact Finset.card_erase_of_mem (by simp [Finset.mem_filter, hkn, hk])

theorem maskCard_pos (n mask k : ℕ) (hk : mask.testBit k = true) (hkn : k < n) :
    0 < maskCard n mask := by
  refine Finset.card_pos.mpr ⟨k, ?_⟩
  simp [Finset.mem_filter, hkn, hk]

theorem maskCard_fullMask (n : ℕ) : maskCard n (fullMask n) = n := by
  unfold maskCard
  rw [Finset.filter_true_of_mem, Finset.card_range]
  intro k hk
  rw [testBit_fullMask]
  simpa using Finset.mem_range.mp hk

theorem eq_zero_of_maskCard_eq_zero (n mask : ℕ) (hlt : mask < 2 ^ n)
    (hc : maskCard n mask = 0) : mask = 0 := by
  refine Nat.eq_of_testBit_eq fun k => ?_
  rw [Nat.zero_testBit]
  by_cases hkn : k < n
  · by_contra hbit
    have hb : mask.testBit k = true := by simpa using hbit
    have := Finset.card_pos.mpr
      (⟨k, by simp [Finset.mem_filter, hkn, hb]⟩ :
        ((Finset.range n).filter (fun j => mask.testBit j = true)).Nonempty)
    unfold maskCard at hc
    omega
  · by_contra hbit
    have hb : mask.testBit k = true := by simpa using hbit
    exact hkn (testBit_lt_of_lt_two_pow mask k n hlt hb)

/-- The sentinel with which both solvers initialise the best score:
`np.array([-1e9])`. -/
def initBest : ℚ := -(10 ^ 9)

/-- The mutable containers of the exhaustive search
(`best_score`, `best_pairs`, `allocations`), threaded as one record. -/
structure ExhState where
  bestScore : ℚ
  bestPairs : List (ℕ × ℕ)
  allocations : ℕ

/-- The mutable containers of the branch-and-bound search
(`best_score`, `best_pairs`, `memo`, `allocations`), threaded as one record. -/
structure BnbState where
  bestScore : ℚ
  bestPairs : List (ℕ × ℕ)
  memo : List (ℕ × ℚ)
  allocations : ℕ

/-- Lookup in the bound cache.  Embeds the numba typed dictionary `memo`
(`mask in memo` / `memo[mask]`); the dictionary is modelled as an
association list to which entries are prepended. -/
def memoLookup (mask : ℕ) : List (ℕ × ℚ) → Option ℚ
  | [] => none
  | (m, v) :: rest => if m = mask then some v else memoLookup mask rest

/-- The inner loop of `compute_upper_bound`: the best remaining score of
student `i` (`best_val`), floored at `0.0`. -/
def bestVal (mask : ℕ) (comp : ℕ → ℕ → ℚ) (n i : ℕ) : ℚ :=
  (List.range n).foldl
    (fun best_val j =>
      if mask.testBit j = true ∧ i ≠ j then
        (if best_val < comp i j then comp i j else best_val)
      else best_val) 0

/-- Embeds `compute_upper_bound(mask, comp, n)`: half the sum over
unmatched `i` of `best_val`. -/
def compute_upper_bound (mask : ℕ) (comp : ℕ → ℕ → ℚ) (n : ℕ) : ℚ :=
  ((List.range n).foldl
    (fun additional i =>
      if mask.testBit i = true then additional + bestVal mask comp n i else additional)
    0) / 2

theorem mem_sortedCandidates {r : ℕ → ℕ → Prop} [DecidableRel r]
    (new_mask n k : ℕ)
    (hk : k ∈ List.insertionSort r
      ((List.range n).filter (fun j => new_mask.testBit j))) :
    new_mask.testBit k = true :=
  (List.mem_filter.mp ((List.perm_insertionSort r _).mem_iff.mp hk)).2

mutual
/-- Embeds the recursive branch-and-bound procedure `search(mask,
current_score, comp, n, best_score, best_pairs, current_pairs, memo,
allocations)`.  `current_pairs` is passed as the argument `curPairs`
(appending before the recursive call and popping afterwards restores it,
so in the functional embedding it is simply extended for the child call).
The descending sort of the candidates by `comp[i, j]` (`np.argsort`
ascending, then reversed) is modelled by a stable insertion sort into
descending order; for equal weights numpy may order the candidates
differently, but the candidate list is the same up to permutation.
The memo-hit and memo-miss branches of the source are expressed by the
two `match`es on `memoLookup`: on a hit `ub` is the cached value and the
state is unchanged, on a miss the bound is computed and cached; both
branches then prune when `current_score + ub <= best_score[0]`. -/
def search (comp : ℕ → ℕ → ℚ) (n : ℕ) (mask : ℕ) (cur : ℚ)
    (curPairs : List (ℕ × ℕ)) (s : BnbState) : BnbState :=
  if hmask : mask = 0 then
    (if s.bestScore < cur then { s with bestScore := cur, bestPairs := curPairs } else s)
  else
    let ub : ℚ :=
      match memoLookup mask s.memo with
      | some v => v
      | none => compute_upper_bound mask comp n
    let s1 : BnbState :=
      match memoLookup mask s.memo with
      | some _ => s
      | none => { s with memo := (mask, compute_upper_bound mask comp n) :: s.memo }
    if cur + ub ≤ s.bestScore then s1
    else
      searchGo comp n (pivot mask n) (clearBit mask (pivot mask n)) cur curPairs
        (List.insertionSort
          (fun a b => comp (pivot mask n) b ≤ comp (pivot mask n) a)
          ((List.range n).filter
            (fun j => (clearBit mask (pivot mask n)).testBit j)))
        (fun k hk => mem_sortedCandidates _ n k hk) s1
termination_by (mask, n + 1)
decreasing_by
  simp_wf
  by_cases hbit : mask.testBit (pivot mask n) = true
  · exact Prod.Lex.left _ _ (clearBit_lt mask (pivot mask n) hbit)
  · rw [clearBit_eq_of_testBit_eq_false mask (pivot mask n) (by simpa using hbit)]
    apply Prod.Lex.right
    have h2 := List.length_filter_le (fun j => mask.testBit j) (List.range n)
    rw [List.length_range] at h2
    omega

/-- The candidate loop of `search`: try pairing the pivot `i` with each
candidate `j` of the (descending-sorted) candidate list, threading the
state.  The hypothesis `hL` records that every list element is a set bit
of `new_mask` (true at the only call site); it is needed for
termination. -/
def searchGo (comp : ℕ → ℕ → ℚ) (n : ℕ) (i new_mask : ℕ) (cur : ℚ)
    (curPairs : List (ℕ × ℕ)) :
    (L : List ℕ) → (∀ j, j ∈ L → new_mask.testBit j = true) → BnbState → BnbState
  | [], _, s => s
  | j :: rest, hL, s =>
    searchGo comp n i new_mask cur curPairs rest
      (fun k hk => hL k (List.mem_cons_of_mem j hk))
      (search comp n (clearBit new_mask j) (cur + comp i j) (curPairs ++ [(i, j)])
        { s with allocations := s.allocations + 1 })
termination_by L _ _ => (new_mask, L.length)
decreasing_by
  all_goals simp_wf
  all_goals
    first
    | exact Prod.Lex.right _ (Nat.lt_succ_self _)
    | exact Prod.Lex.left _ _ (clearBit_lt new_mask j (hL j (List.mem_cons_self j rest)))
end

/-- Embeds `branch_and_bound_numba(comp, n)`: initialise
`best_score = -1e9`, empty pairings, empty memo, zero counter, run
`search` on the full mask and return
`(best_score[0], best_pairs, allocations[0])`. -/
def branch_and_bound_numba (comp : ℕ → ℕ → ℚ) (n : ℕ) : ℚ × List (ℕ × ℕ) × ℕ :=
  let s := search comp n (fullMask n) 0 []
    { bestScore := initBest, bestPairs := [], memo := [], allocations := 0 }
  (s.bestScore, s.bestPairs, s.allocations)

mutual
/-- Embeds the recursive exhaustive enumeration `exhaustive_search_njit`. -/
def exhaustive_search (comp : ℕ → ℕ → ℚ) (n : ℕ) (mask : ℕ) (cur : ℚ)
    (curPairs : List (ℕ × ℕ)) (s : ExhState) : ExhState :=
  if hmask : mask = 0 then
    (if s.bestScore < cur then { s with bestScore := cur, bestPairs := curPairs } else s)
  else
    exhGo comp n (pivot_exh mask) (clearBit mask (pivot_exh mask)) cur curPairs
      (bitsAsc (clearBit mask (pivot_exh mask))) s
termination_by (mask, 0)
decreasing_by
  simp_wf
  exact Prod.Lex.left _ _ (clearBit_lt mask (pivot_exh mask) (testBit_pivot_exh mask hmask))

/-- The candidate loop of `exhaustive_search_njit` (ascending set bits of
`new_mask`): count the pairing decision, pair `(i, j)` and recurse. -/
def exhGo (comp : ℕ → ℕ → ℚ) (n : ℕ) (i new_mask : ℕ) (cur : ℚ)
    (curPairs : List (ℕ × ℕ)) : List ℕ → ExhState → ExhState
  | [], s => s
  | j :: rest, s =>
    exhGo comp n i new_mask cur curPairs rest
      (exhaustive_search comp n (clearBit new_mask j) (cur + comp i j)
        (curPairs ++ [(i, j)]) { s with allocations := s.allocations + 1 })
termination_by L _ => (new_mask, L.length + 1)
decreasing_by
  all_goals simp_wf
  all_goals
    first
    | exact Prod.Lex.right _ (Nat.lt_succ_self _)
    | rcases Nat.lt_or_ge (clearBit new_mask j) new_mask with hlt | hge
      · exact Prod.Lex.left _ _ hlt
      · rw [le_antisymm (clearBit_le new_mask j) hge]
        exact Prod.Lex.right _ (by omega)
end

/-- Embeds `exhaustive_search_wrapper(comp, n)`. -/
def exhaustive_search_wrapper (comp : ℕ → ℕ → ℚ) (n : ℕ) : ℚ × List (ℕ × ℕ) × ℕ :=
  let s := exhaustive_search comp n (fullMask n) 0 []
    { bestScore := initBest, bestPairs := [], allocations := 0 }
  (s.bestScore, s.bestPairs, s.allocations)

mutual
/-- Specification-side value: the best total score obtainable by pairing
up exactly the students of `mask` (following the same lowest-bit pivot
branching as the searches); `⊥` when `mask` admits no perfect pairing. -/
def opt (comp : ℕ → ℕ → ℚ) (mask : ℕ) : WithBot ℚ :=
  if hmask : mask = 0 then ((0 : ℚ) : WithBot ℚ)
  else optGo comp (lowestSetBit mask) (clearBit mask (lowestSetBit mask))
    (bitsAsc (clearBit mask (lowestSetBit mask))) ⊥
termination_by (mask, 0)
decreasing_by
  simp_wf
  exact Prod.Lex.left _ _ (clearBit_lt mask (lowestSetBit mask) (testBit_lowestSetBit mask hmask))

/-- Helper of `opt`: fold the maximum over the candidate partners. -/
def optGo (comp : ℕ → ℕ → ℚ) (i m2 : ℕ) : List ℕ → WithBot ℚ → WithBot ℚ
  | [], acc => acc
  | j :: rest, acc =>
    optGo comp i m2 rest (max acc ((comp i j : WithBot ℚ) + opt comp (clearBit m2 j)))
termination_by L _ => (m2, L.length + 1)
decreasing_by
  all_goals simp_wf
  all_goals
    first
    | exact Prod.Lex.right _ (Nat.lt_succ_self _)
    | rcases Nat.lt_or_ge (clearBit m2 j) m2 with hlt | hge
      · exact Prod.Lex.left _ _ hlt
      · rw [le_antisymm (clearBit_le m2 j) hge]
        exact Prod.Lex.right _ (by omega)
end

mutual
/-- Specification-side value: the total number of pairing decisions the
exhaustive enumeration performs on `mask` (the final value of its
`allocations` counter when started from `0`). -/
def allocCount (mask : ℕ) : ℕ :=
  if hmask : mask = 0 then 0
  else allocGo (clearBit mask (lowestSetBit mask))
    (bitsAsc (clearBit mask (lowestSetBit mask)))
termination_by (mask, 0)
decreasing_by
  simp_wf
  exact Prod.Lex.left _ _ (clearBit_lt mask (lowestSetBit mask) (testBit_lowestSetBit mask hmask))

/-- Helper of `allocCount`: one decision per candidate plus the decisions
of the child subtree. -/
def allocGo (m2 : ℕ) : List ℕ → ℕ
  | [] => 0
  | j :: rest => 1 + allocCount (clearBit m2 j) + allocGo m2 rest
termination_by L => (m2, L.length + 1)
decreasing_by
  all_goals simp_wf
  all_goals
    first
    | exact Prod.Lex.right _ (Nat.lt_succ_self _)
    | rcases Nat.lt_or_ge (clearBit m2 j) m2 with hlt | hge
      · exact Prod.Lex.left _ _ hlt
      · rw [le_antisymm (clearBit_le m2 j) hge]
        exact Prod.Lex.right _ (by omega)
end

/-- The states on which the branch-and-bound recursion can be invoked,
starting from the full state: `init` is the root call made by
`branch_and_bound_numba`, and `step` describes the child state passed by
the candidate loop of `search` (pivot `i = pivot mask n` and candidate
`j` drawn from the descending-sorted candidate list).  Pruning only
removes calls, so every state on which `search` is actually invoked
belongs to this family. -/
inductive Reachable (comp : ℕ → ℕ → ℚ) (n : ℕ) : ℕ → Prop where
  | init : Reachable comp n (fullMask n)
  | step (mask j : ℕ) :
      Reachable comp n mask → mask ≠ 0 →
      j ∈ List.insertionSort
        (fun a b => comp (pivot mask n) b ≤ comp (pivot mask n) a)
        ((List.range n).filter (fun k => (clearBit mask (pivot mask n)).testBit k)) →
      Reachable comp n (clearBit (clearBit mask (pivot mask n)) j)

/-- The weight matrix is symmetric on the index range `[0, n)`. -/
def Symm (comp : ℕ → ℕ → ℚ) (n : ℕ) : Prop :=
  ∀ i, i < n → ∀ j, j < n → comp i j = comp j i

/-- All weights on the index range `[0, n)` are non-negative. -/
def Nonneg (comp : ℕ → ℕ → ℚ) (n : ℕ) : Prop :=
  ∀ i, i < n → ∀ j, j < n → 0 ≤ comp i j

/-- `IsPairingOf M mask` holds when the pair list `M` partitions exactly
the students of `mask` into disjoint pairs (a perfect matching of the
state `mask`). -/
def IsPairingOf : List (ℕ × ℕ) → ℕ → Bool
  | [], mask => mask == 0
  | (i, j) :: M, mask =>
    (!(i == j)) && mask.testBit i && mask.testBit j &&
      IsPairingOf M (clearBit (clearBit mask i) j)

/-- Number of occurrences of the student id `k` among the pairs of `M`
(both components counted). -/
def idCount (k : ℕ) : List (ℕ × ℕ) → ℕ
  | [] => 0
  | p :: M => (if p.1 = k then 1 else 0) + (if p.2 = k then 1 else 0) + idCount k M

/-- Total score of a pair list. -/
def scoreOf (comp : ℕ → ℕ → ℚ) (M : List (ℕ × ℕ)) : ℚ :=
  (M.map (fun p => comp p.1 p.2)).sum

/-- Invariant of the bound cache: every stored entry is the upper bound
of its key. -/
def MemoOK (comp : ℕ → ℕ → ℚ) (n : ℕ) (memo : List (ℕ × ℚ)) : Prop :=
  ∀ p, p ∈ memo → p.2 = compute_upper_bound p.1 comp n

theorem le_foldl_clamp (P : ℕ → Prop) [DecidablePred P] (w : ℕ → ℚ) :
    ∀ (L : List ℕ) (b : ℚ),
      b ≤ L.foldl (fun acc j => if P j then (if acc < w j then w j else acc) else acc) b
  | [], b => le_refl b
  | j :: L, b => by
    rw [List.foldl_cons]
    refine le_trans ?_ (le_foldl_clamp P w L _)
    by_cases hp : P j
    · rw [if_pos hp]
      by_cases hb : b < w j
      · rw [if_pos hb]
        exact le_of_lt hb
      · rw [if_neg hb]
    · rw [if_neg hp]

theorem w_le_foldl_clamp (P : ℕ → Prop) [DecidablePred P] (w : ℕ → ℚ) :
    ∀ (L : List ℕ) (b : ℚ) (j : ℕ), j ∈ L → P j →
      w j ≤ L.foldl (fun acc k => if P k then (if acc < w k then w k else acc) else acc) b := by
  intro L
  induction L with
  | nil => intro b j hj; simp at hj
  | cons k L ih =>
    intro b j hj hp
    rw [List.foldl_cons]
    rcases List.mem_cons.mp hj with hj | hj
    · subst hj
      refine le_trans ?_ (le_foldl_clamp P w L _)
      rw [if_pos hp]
      by_cases hb : b < w j
      · rw [if_pos hb]
      · rw [if_neg hb]
        exact le_of_not_lt hb
    · exact ih _ j hj hp

theorem foldl_clamp_mono (P Q : ℕ → Prop) [DecidablePred P] [DecidablePred Q]
    (hPQ : ∀ j, P j → Q j) (w : ℕ → ℚ) :
    ∀ (L : List ℕ) (b' b : ℚ), b' ≤ b →
      L.foldl (fun acc j => if P j then (if acc < w j then w j else acc) else acc) b' ≤
        L.foldl (fun acc j => if Q j then (if acc < w j then w j else acc) else acc) b := by
  intro L
  induction L with
  | nil => intro b' b h; simpa using h
  | cons k L ih =>
    intro b' b h
    rw [List.foldl_cons, List.foldl_cons]
    refine ih _ _ ?_
    by_cases hp : P k
    · rw [if_pos hp, if_pos (hPQ k hp)]
      by_cases hb' : b' < w k
      · rw [if_pos hb']
        by_cases hb : b < w k
        · rw [if_pos hb]
        · rw [if_neg hb]
          exact le_of_not_lt hb
      · rw [if_neg hb']
        by_cases hb : b < w k
        · rw [if_pos hb]
          exact le_trans h (le_of_lt hb)
        · rw [if_neg hb]
          exact h
    · rw [if_neg hp]
      by_cases hq : Q k
      · rw [if_pos hq]
        by_cases hb : b < w k
        · rw [if_pos hb]
          exact le_trans h (le_of_lt hb)
        · rw [if_neg hb]
          exact h
      · rw [if_neg hq]
        exact h

theorem bestVal_nonneg (mask : ℕ) (comp : ℕ → ℕ → ℚ) (n i : ℕ) :
    0 ≤ bestVal mask comp n i :=
  le_foldl_clamp (fun j => mask.testBit j = true ∧ i ≠ j) (fun j => comp i j)
    (List.range n) 0

theorem le_bestVal (mask : ℕ) (comp : ℕ → ℕ → ℚ) (n i j : ℕ) (hjn : j < n)
    (hj : mask.testBit j = true) (hij : i ≠ j) : comp i j ≤ bestVal mask comp n i :=
  w_le_foldl_clamp (fun k => mask.testBit k = true ∧ i ≠ k) (fun k => comp i k)
    (List.range n) 0 j (List.mem_range.mpr hjn) ⟨hj, hij⟩

theorem bestVal_mono (mask2 mask : ℕ) (comp : ℕ → ℕ → ℚ) (n i : ℕ)
    (hsub : ∀ k, mask2.testBit k = true → mask.testBit k = true) :
    bestVal mask2 comp n i ≤ bestVal mask comp n i :=
  foldl_clamp_mono (fun k => mask2.testBit k = true ∧ i ≠ k)
    (fun k => mask.testBit k = true ∧ i ≠ k)
    (fun k hk => ⟨hsub k hk.1, hk.2⟩) (fun k => comp i k) (List.range n) 0 0 le_rfl

theorem foldl_if_add_eq (Q : ℕ → Prop) [DecidablePred Q] (g : ℕ → ℚ) :
    ∀ (m : ℕ) (c : ℚ),
      (List.range m).foldl (fun acc i => if Q i then acc + g i else acc) c =
        c + ∑ i in Finset.range m, (if Q i then g i else 0) := by
  intro m
  induction m with
  | zero => intro c; simp
  | succ m ih =>
    intro c
    rw [List.range_succ, List.foldl_append, ih, Finset.sum_range_succ, List.foldl_cons,
      List.foldl_nil]
    by_cases hq : Q m
    · rw [if_pos hq, if_pos hq]
      ring
    · rw [if_neg hq, if_neg hq]
      ring

theorem compute_upper_bound_eq_sum (mask : ℕ) (comp : ℕ → ℕ → ℚ) (n : ℕ) :
    compute_upper_bound mask comp n =
      (∑ i in (Finset.range n).filter (fun i => mask.testBit i = true),
        bestVal mask comp n i) / 2 := by
  unfold compute_upper_bound
  rw [foldl_if_add_eq (fun i => mask.testBit i = true) (fun i => bestVal mask comp n i) n 0,
    Finset.sum_filter, zero_add]

theorem compute_upper_bound_nonneg (mask : ℕ) (comp : ℕ → ℕ → ℚ) (n : ℕ) :
    0 ≤ compute_upper_bound mask comp n := by
  rw [compute_upper_bound_eq_sum]
  have : (0 : ℚ) ≤ ∑ i in (Finset.range n).filter (fun i => mask.testBit i = true),
      bestVal mask comp n i :=
    Finset.sum_nonneg fun i _ => bestVal_nonneg mask comp n i
  linarith

theorem compute_upper_bound_zero (comp : ℕ → ℕ → ℚ) (n : ℕ) :
    compute_upper_bound 0 comp n = 0 := by
  rw [compute_upper_bound_eq_sum]
  rw [Finset.filter_false_of_mem (fun i _ => by simp)]
  simp

theorem clearBit_clearBit_subset (mask i j : ℕ) :
    ∀ k, (clearBit (clearBit mask i) j).testBit k = true → mask.testBit k = true :=
  fun k hk => clearBit_ne_zero_iff mask i k (clearBit_ne_zero_iff (clearBit mask i) j k hk)

/-- Key superadditivity property of the bound: pairing `(i, j)` and
bounding the rest never exceeds the bound of the whole state. -/
theorem pair_add_upper_bound_le (mask : ℕ) (comp : ℕ → ℕ → ℚ) (n i j : ℕ)
    (hmask : mask < 2 ^ n) (hij : i ≠ j)
    (hi : mask.testBit i = true) (hj : mask.testBit j = true)
    (hsym : Symm comp n) :
    comp i j + compute_upper_bound (clearBit (clearBit mask i) j) comp n ≤
      compute_upper_bound mask comp n := by
  have hin : i < n := testBit_lt_of_lt_two_pow mask i n hmask hi
  have hjn : j < n := testBit_lt_of_lt_two_pow mask j n hmask hj
  rw [compute_upper_bound_eq_sum, compute_upper_bound_eq_sum]
  set mask2 := clearBit (clearBit mask i) j with hmask2
  set S := (Finset.range n).filter (fun k => mask.testBit k = true) with hS
  set S2 := (Finset.range n).filter (fun k => mask2.testBit k = true) with hS2
  have hiS : i ∈ S := by
    rw [hS]
    simp [Finset.mem_filter, hin, hi]
  have hjS : j ∈ S.erase i := by
    rw [hS]
    simp [Finset.mem_filter, Finset.mem_erase, hjn, hj]
    exact fun he => hij he.symm
  have hS2eq : S2 = (S.erase i).erase j := by
    rw [hS, hS2]
    ext k
    simp only [Finset.mem_filter, Finset.mem_erase, Finset.mem_range, hmask2,
      testBit_clearBit]
    constructor
    · intro hk
      rcases hk with ⟨hk1, hk2⟩
      by_cases hkj : k = j <;> by_cases hki : k = i <;> simp [hkj, hki] at hk2 ⊢
      · exact ⟨hk1, hk2⟩
    · intro hk
      rcases hk with ⟨hkj, hki, hk1, hk2⟩
      simp [hkj, hki, hk1, hk2]
  -- sum over S = bestVal i + bestVal j + sum over rest
  have hsplit1 : ∑ k in S, bestVal mask comp n k =
      bestVal mask comp n i + ∑ k in S.erase i, bestVal mask comp n k := by
    rw [← Finset.sum_erase_add S _ hiS]
    ring
  have hsplit2 : ∑ k in S.erase i, bestVal mask comp n k =
      bestVal mask comp n j + ∑ k in (S.erase i).erase j, bestVal mask comp n k := by
    rw [← Finset.sum_erase_add (S.erase i) _ hjS]
    ring
  have hrest : ∑ k in S2, bestVal mask2 comp n k ≤
      ∑ k in (S.erase i).erase j, bestVal mask comp n k := by
    rw [hS2eq]
    exact Finset.sum_le_sum fun k _ =>
      bestVal_mono mask2 mask comp n k (clearBit_clearBit_subset mask i j)
  have hbi : comp i j ≤ bestVal mask comp n i := le_bestVal mask comp n i j hjn hj hij
  have hbj : comp i j ≤ bestVal mask comp n j := by
    rw [hsym i hin j hjn]
    exact le_bestVal mask comp n j i hin hi (fun he => hij he.symm)
  rw [hsplit1, hsplit2]
  linarith

theorem scoreOf_nil (comp : ℕ → ℕ → ℚ) : scoreOf comp [] = 0 := rfl

theorem scoreOf_cons (comp : ℕ → ℕ → ℚ) (i j : ℕ) (M : List (ℕ × ℕ)) :
    scoreOf comp ((i, j) :: M) = comp i j + scoreOf comp M := by
  simp [scoreOf]

theorem isPairingOf_nil_iff (mask : ℕ) : IsPairingOf [] mask = true ↔ mask = 0 := by
  simp [IsPairingOf]

theorem isPairingOf_cons_iff (i j : ℕ) (M : List (ℕ × ℕ)) (mask : ℕ) :
    IsPairingOf ((i, j) :: M) mask = true ↔
      i ≠ j ∧ mask.testBit i = true ∧ mask.testBit j = true ∧
        IsPairingOf M (clearBit (clearBit mask i) j) = true := by
  simp [IsPairingOf, and_assoc]

theorem scoreOf_le_upper_bound (comp : ℕ → ℕ → ℚ) (n : ℕ) (hsym : Symm comp n) :
    ∀ (M : List (ℕ × ℕ)) (mask : ℕ), mask < 2 ^ n → IsPairingOf M mask = true →
      scoreOf comp M ≤ compute_upper_bound mask comp n := by
  intro M
  induction M with
  | nil =>
    intro mask hlt hp
    rw [(isPairingOf_nil_iff mask).mp hp, scoreOf_nil, compute_upper_bound_zero]
  | cons p M ih =>
    obtain ⟨i, j⟩ := p
    intro mask hlt hp
    obtain ⟨hij, hi, hj, hrec⟩ := (isPairingOf_cons_iff i j M mask).mp hp
    have hchild : clearBit (clearBit mask i) j < 2 ^ n :=
      lt_of_le_of_lt (le_trans (clearBit_le _ _) (clearBit_le _ _)) hlt
    have h1 := ih (clearBit (clearBit mask i) j) hchild hrec
    have h2 := pair_add_upper_bound_le mask comp n i j hlt hij hi hj hsym
    rw [scoreOf_cons]
    linarith

/-- Fold of `max` over a list, used to reason about the candidate loops. -/
def maxFold (f : ℕ → WithBot ℚ) (L : List ℕ) (b : WithBot ℚ) : WithBot ℚ :=
  L.foldl (fun acc j => max acc (f j)) b

theorem add_max_withBot (a b c : WithBot ℚ) : a + max b c = max (a + b) (a + c) := by
  rcases le_total b c with h | h
  · rw [max_eq_right h, max_eq_right (add_le_add_left h a)]
  · rw [max_eq_left h, max_eq_left (add_le_add_left h a)]

theorem maxFold_nil (f : ℕ → WithBot ℚ) (b : WithBot ℚ) : maxFold f [] b = b := rfl

theorem maxFold_cons (f : ℕ → WithBot ℚ) (j : ℕ) (L : List ℕ) (b : WithBot ℚ) :
    maxFold f (j :: L) b = maxFold f L (max b (f j)) := rfl

theorem le_maxFold_init (f : ℕ → WithBot ℚ) :
    ∀ (L : List ℕ) (b : WithBot ℚ), b ≤ maxFold f L b := by
  intro L
  induction L with
  | nil => intro b; exact le_refl b
  | cons j L ih =>
    intro b
    rw [maxFold_cons]
    exact le_trans (le_max_left b (f j)) (ih _)

theorem maxFold_init_eq (f : ℕ → WithBot ℚ) :
    ∀ (L : List ℕ) (b : WithBot ℚ), maxFold f L b = max b (maxFold f L ⊥) := by
  intro L
  induction L with
  | nil =>
    intro b
    rw [maxFold_nil, maxFold_nil, max_eq_left bot_le]
  | cons j L ih =>
    intro b
    rw [maxFold_cons, maxFold_cons, ih (max b (f j)), ih (max ⊥ (f j)),
      max_eq_right (bot_le : (⊥ : WithBot ℚ) ≤ f j), max_assoc]

theorem le_maxFold_of_mem (f : ℕ → WithBot ℚ) :
    ∀ (L : List ℕ) (b : WithBot ℚ) (j : ℕ), j ∈ L → f j ≤ maxFold f L b := by
  intro L
  induction L with
  | nil => intro b j hj; simp at hj
  | cons k L ih =>
    intro b j hj
    rcases List.mem_cons.mp hj with hj | hj
    · subst hj
      rw [maxFold_cons]
      exact le_trans (le_max_right b (f j)) (le_maxFold_init f L _)
    · rw [maxFold_cons]
      exact ih _ j hj

theorem maxFold_le (f : ℕ → WithBot ℚ) (c : WithBot ℚ) :
    ∀ (L : List ℕ) (b : WithBot ℚ), b ≤ c → (∀ j, j ∈ L → f j ≤ c) →
      maxFold f L b ≤ c := by
  intro L
  induction L with
  | nil => intro b hb _; exact hb
  | cons k L ih =>
    intro b hb hL
    rw [maxFold_cons]
    exact ih _ (max_le hb (hL k (List.mem_cons_self k L)))
      (fun j hj => hL j (List.mem_cons_of_mem k hj))

theorem add_maxFold (a : WithBot ℚ) (f : ℕ → WithBot ℚ) :
    ∀ (L : List ℕ) (b : WithBot ℚ),
      a + maxFold f L b = maxFold (fun j => a + f j) L (a + b) := by
  intro L
  induction L with
  | nil => intro b; rw [maxFold_nil, maxFold_nil]
  | cons k L ih =>
    intro b
    rw [maxFold_cons, maxFold_cons, ih, add_max_withBot]

theorem maxFold_perm (f : ℕ → WithBot ℚ) (L1 L2 : List ℕ) (h : List.Perm L1 L2) :
    ∀ b : WithBot ℚ, maxFold f L1 b = maxFold f L2 b := by
  induction h with
  | nil => intro b; rfl
  | cons x _ ih =>
    intro b
    rw [maxFold_cons, maxFold_cons, ih]
  | swap x y L =>
    intro b
    rw [maxFold_cons, maxFold_cons, maxFold_cons, maxFold_cons, sup_right_comm]
  | trans _ _ ih1 ih2 =>
    intro b
    rw [ih1, ih2]

theorem optGo_eq_maxFold (comp : ℕ → ℕ → ℚ) (i m2 : ℕ) :
    ∀ (L : List ℕ) (acc : WithBot ℚ),
      optGo comp i m2 L acc =
        maxFold (fun j => ((comp i j : ℚ) : WithBot ℚ) + opt comp (clearBit m2 j)) L acc := by
  intro L
  induction L with
  | nil => intro acc; rw [optGo, maxFold_nil]
  | cons j L ih =>
    intro acc
    rw [optGo, maxFold_cons, ih]

theorem opt_zero (comp : ℕ → ℕ → ℚ) : opt comp 0 = ((0 : ℚ) : WithBot ℚ) := by
  rw [opt]
  simp

theorem opt_ne_zero (comp : ℕ → ℕ → ℚ) (mask : ℕ) (h : mask ≠ 0) :
    opt comp mask =
      maxFold (fun j => ((comp (lowestSetBit mask) j : ℚ) : WithBot ℚ) +
        opt comp (clearBit (clearBit mask (lowestSetBit mask)) j))
        (bitsAsc (clearBit mask (lowestSetBit mask))) ⊥ := by
  rw [opt, dif_neg h, optGo_eq_maxFold]

theorem opt_le_upper_bound (comp : ℕ → ℕ → ℚ) (n : ℕ) (hsym : Symm comp n) :
    ∀ mask, mask < 2 ^ n →
      opt comp mask ≤ ((compute_upper_bound mask comp n : ℚ) : WithBot ℚ) := by
  intro mask
  induction mask using Nat.strong_induction_on with
  | _ mask ih =>
    intro hlt
    by_cases h0 : mask = 0
    · subst h0
      rw [opt_zero, compute_upper_bound_zero]
    · rw [opt_ne_zero comp mask h0]
      set i := lowestSetBit mask with hidef
      set m2 := clearBit mask i with hm2
      have him : mask.testBit i = true := testBit_lowestSetBit mask h0
      have hm2lt : m2 < mask := clearBit_lt mask i him
      refine maxFold_le _ _ _ ⊥ bot_le fun j hj => ?_
      have hjm2 : m2.testBit j = true := (mem_bitsAsc m2 j).mp hj
      have hjmask : mask.testBit j = true := clearBit_ne_zero_iff mask i j hjm2
      have hij : i ≠ j := by
        intro he
        rw [hm2, ← he, testBit_clearBit, if_pos rfl] at hjm2
        exact Bool.false_ne_true hjm2
      have hchildlt : clearBit m2 j < mask := lt_of_le_of_lt (clearBit_le m2 j) hm2lt
      have hchild2n : clearBit m2 j < 2 ^ n := lt_trans hchildlt hlt
      have hrec := ih (clearBit m2 j) hchildlt hchild2n
      have hkey := pair_add_upper_bound_le mask comp n i j hlt hij him hjmask hsym
      calc ((comp i j : ℚ) : WithBot ℚ) + opt comp (clearBit m2 j) ≤
          ((comp i j : ℚ) : WithBot ℚ) + ((compute_upper_bound (clearBit m2 j) comp n : ℚ) : WithBot ℚ) :=
            add_le_add_left hrec _
        _ = ((comp i j + compute_upper_bound (clearBit m2 j) comp n : ℚ) : WithBot ℚ) :=
            (WithBot.coe_add _ _).symm
        _ ≤ ((compute_upper_bound mask comp n : ℚ) : WithBot ℚ) :=
            WithBot.coe_le_coe.mpr hkey

theorem memoLookup_mem (mask : ℕ) :
    ∀ (memo : List (ℕ × ℚ)) (v : ℚ), memoLookup mask memo = some v → (mask, v) ∈ memo := by
  intro memo
  induction memo with
  | nil =>
    intro v h
    simp [memoLookup] at h
  | cons p rest ih =>
    intro v h
    obtain ⟨m, w⟩ := p
    rw [memoLookup] at h
    by_cases hm : m = mask
    · rw [if_pos hm] at h
      subst hm
      rw [Option.some_inj] at h
      subst h
      exact List.mem_cons_self _ _
    · rw [if_neg hm] at h
      exact List.mem_cons_of_mem _ (ih v h)

theorem memoOK_insert (comp : ℕ → ℕ → ℚ) (n mask : ℕ) (memo : List (ℕ × ℚ))
    (h : MemoOK comp n memo) :
    MemoOK comp n ((mask, compute_upper_bound mask comp n) :: memo) := by
  intro p hp
  rcases List.mem_cons.mp hp with hp | hp
  · rw [hp]
  · exact h p hp

theorem bitsAsc_nodup (m : ℕ) : (bitsAsc m).Nodup := by
  induction m using Nat.strong_induction_on with
  | _ m ih =>
    rw [bitsAsc]
    by_cases h : m = 0
    · simp [h]
    rw [dif_neg h]
    have hlt := clearBit_lt m (pivot_exh m) (testBit_pivot_exh m h)
    refine List.Nodup.cons ?_ (ih _ hlt)
    intro hmem
    have := (mem_bitsAsc _ _).mp hmem
    rw [testBit_clearBit, if_pos rfl] at this
    exact Bool.false_ne_true this

theorem sortedCandidates_perm_bitsAsc (w : ℕ → ℕ → ℚ) (ipiv n m2 : ℕ)
    (hm2 : m2 < 2 ^ n) :
    List.Perm
      (List.insertionSort (fun a b => w ipiv b ≤ w ipiv a)
        ((List.range n).filter (fun j => m2.testBit j)))
      (bitsAsc m2) := by
  refine List.Perm.trans (List.perm_insertionSort _ _) ?_
  refine (List.perm_ext_iff_of_nodup ((List.nodup_range n).filter _) (bitsAsc_nodup m2)).mpr ?_
  intro a
  rw [List.mem_filter, mem_bitsAsc, List.mem_range]
  constructor
  · exact fun h => h.2
  · exact fun h => ⟨testBit_lt_of_lt_two_pow m2 a n hm2 h, h⟩

theorem search_zero (comp : ℕ → ℕ → ℚ) (n : ℕ) (cur : ℚ) (curPairs : List (ℕ × ℕ))
    (s : BnbState) :
    search comp n 0 cur curPairs s =
      if s.bestScore < cur then { s with bestScore := cur, bestPairs := curPairs } else s := by
  rw [search]
  simp

theorem search_hit_prune (comp : ℕ → ℕ → ℚ) (n mask : ℕ) (cur : ℚ)
    (curPairs : List (ℕ × ℕ)) (s : BnbState) (v : ℚ) (h0 : mask ≠ 0)
    (hm : memoLookup mask s.memo = some v) (hp : cur + v ≤ s.bestScore) :
    search comp n mask cur curPairs s = s := by
  rw [search, dif_neg h0]
  simp only [hm]
  rw [if_pos hp]

theorem search_miss_prune (comp : ℕ → ℕ → ℚ) (n mask : ℕ) (cur : ℚ)
    (curPairs : List (ℕ × ℕ)) (s : BnbState) (h0 : mask ≠ 0)
    (hm : memoLookup mask s.memo = none)
    (hp : cur + compute_upper_bound mask comp n ≤ s.bestScore) :
    search comp n mask cur curPairs s =
      { s with memo := (mask, compute_upper_bound mask comp n) :: s.memo } := by
  rw [search, dif_neg h0]
  simp only [hm]
  rw [if_pos hp]

theorem search_hit_expand (comp : ℕ → ℕ → ℚ) (n mask : ℕ) (cur : ℚ)
    (curPairs : List (ℕ × ℕ)) (s : BnbState) (v : ℚ) (h0 : mask ≠ 0)
    (hm : memoLookup mask s.memo = some v) (hp : ¬(cur + v ≤ s.bestScore)) :
    search comp n mask cur curPairs s =
      searchGo comp n (pivot mask n) (clearBit mask (pivot mask n)) cur curPairs
        (List.insertionSort
          (fun a b => comp (pivot mask n) b ≤ comp (pivot mask n) a)
          ((List.range n).filter
            (fun j => (clearBit mask (pivot mask n)).testBit j)))
        (fun k hk => mem_sortedCandidates _ n k hk) s := by
  rw [search, dif_neg h0]
  simp only [hm]
  rw [if_neg hp]

theorem search_miss_expand (comp : ℕ → ℕ → ℚ) (n mask : ℕ) (cur : ℚ)
    (curPairs : List (ℕ × ℕ)) (s : BnbState) (h0 : mask ≠ 0)
    (hm : memoLookup mask s.memo = none)
    (hp : ¬(cur + compute_upper_bound mask comp n ≤ s.bestScore)) :
    search comp n mask cur curPairs s =
      searchGo comp n (pivot mask n) (clearBit mask (pivot mask n)) cur curPairs
        (List.insertionSort
          (fun a b => comp (pivot mask n) b ≤ comp (pivot mask n) a)
          ((List.range n).filter
            (fun j => (clearBit mask (pivot mask n)).testBit j)))
        (fun k hk => mem_sortedCandidates _ n k hk)
        { s with memo := (mask, compute_upper_bound mask comp n) :: s.memo } := by
  rw [search, dif_neg h0]
  simp only [hm]
  rw [if_neg hp]

theorem searchGo_nil (comp : ℕ → ℕ → ℚ) (n i m2 : ℕ) (cur : ℚ)
    (curPairs : List (ℕ × ℕ)) (hL : ∀ j, j ∈ ([] : List ℕ) → m2.testBit j = true)
    (s : BnbState) :
    searchGo comp n i m2 cur curPairs [] hL s = s := by
  rw [searchGo]

theorem searchGo_cons (comp : ℕ → ℕ → ℚ) (n i m2 : ℕ) (cur : ℚ)
    (curPairs : List (ℕ × ℕ)) (j : ℕ) (rest : List ℕ)
    (hL : ∀ k, k ∈ j :: rest → m2.testBit k = true) (s : BnbState) :
    searchGo comp n i m2 cur curPairs (j :: rest) hL s =
      searchGo comp n i m2 cur curPairs rest
        (fun k hk => hL k (List.mem_cons_of_mem j hk))
        (search comp n (clearBit m2 j) (cur + comp i j) (curPairs ++ [(i, j)])
          { s with allocations := s.allocations + 1 }) := by
  rw [searchGo]

theorem exhaustive_search_zero (comp : ℕ → ℕ → ℚ) (n : ℕ) (cur : ℚ)
    (curPairs : List (ℕ × ℕ)) (s : ExhState) :
    exhaustive_search comp n 0 cur curPairs s =
      if s.bestScore < cur then { s with bestScore := cur, bestPairs := curPairs } else s := by
  rw [exhaustive_search]
  simp

theorem exhaustive_search_ne_zero (comp : ℕ → ℕ → ℚ) (n mask : ℕ) (cur : ℚ)
    (curPairs : List (ℕ × ℕ)) (s : ExhState) (h0 : mask ≠ 0) :
    exhaustive_search comp n mask cur curPairs s =
      exhGo comp n (pivot_exh mask) (clearBit mask (pivot_exh mask)) cur curPairs
        (bitsAsc (clearBit mask (pivot_exh mask))) s := by
  rw [exhaustive_search, dif_neg h0]

theorem exhGo_nil (comp : ℕ → ℕ → ℚ) (n i m2 : ℕ) (cur : ℚ)
    (curPairs : List (ℕ × ℕ)) (s : ExhState) :
    exhGo comp n i m2 cur curPairs [] s = s := by
  rw [exhGo]

theorem exhGo_cons (comp : ℕ → ℕ → ℚ) (n i m2 : ℕ) (cur : ℚ)
    (curPairs : List (ℕ × ℕ)) (j : ℕ) (rest : List ℕ) (s : ExhState) :
    exhGo comp n i m2 cur curPairs (j :: rest) s =
      exhGo comp n i m2 cur curPairs rest
        (exhaustive_search comp n (clearBit m2 j) (cur + comp i j)
          (curPairs ++ [(i, j)]) { s with allocations := s.allocations + 1 }) := by
  rw [exhGo]

theorem search_score (comp : ℕ → ℕ → ℚ) (n : ℕ) (hsym : Symm comp n) :
    ∀ mask, mask < 2 ^ n → ∀ (cur : ℚ) (curPairs : List (ℕ × ℕ)) (s : BnbState),
      MemoOK comp n s.memo →
      ((search comp n mask cur curPairs s).bestScore : WithBot ℚ) =
        max (s.bestScore : WithBot ℚ) ((cur : WithBot ℚ) + opt comp mask) ∧
      MemoOK comp n (search comp n mask cur curPairs s).memo := by
  intro mask
  induction mask using Nat.strong_induction_on with
  | _ mask ih =>
    intro hlt cur curPairs s hmemo
    by_cases h0 : mask = 0
    · subst h0
      rw [search_zero, opt_zero]
      by_cases hbest : s.bestScore < cur
      · rw [if_pos hbest]
        refine ⟨?_, hmemo⟩
        show (cur : WithBot ℚ) = max (s.bestScore : WithBot ℚ) ((cur : WithBot ℚ) + ((0 : ℚ) : WithBot ℚ))
        rw [← WithBot.coe_add, add_zero]
        exact (max_eq_right (WithBot.coe_le_coe.mpr (le_of_lt hbest))).symm
      · rw [if_neg hbest]
        refine ⟨?_, hmemo⟩
        show (s.bestScore : WithBot ℚ) = max (s.bestScore : WithBot ℚ) ((cur : WithBot ℚ) + ((0 : ℚ) : WithBot ℚ))
        rw [← WithBot.coe_add, add_zero]
        exact (max_eq_left (WithBot.coe_le_coe.mpr (le_of_not_lt hbest))).symm
    · have hpiv : mask.testBit (pivot mask n) = true := testBit_pivot mask n h0 hlt
      have hm2lt : clearBit mask (pivot mask n) < mask := clearBit_lt mask (pivot mask n) hpiv
      have hm2n : clearBit mask (pivot mask n) < 2 ^ n := lt_trans hm2lt hlt
      have hub_le : opt comp mask ≤ ((compute_upper_bound mask comp n : ℚ) : WithBot ℚ) :=
        opt_le_upper_bound comp n hsym mask hlt
      have go : ∀ (L : List ℕ)
          (hL : ∀ j, j ∈ L → (clearBit mask (pivot mask n)).testBit j = true)
          (t : BnbState), MemoOK comp n t.memo →
          ((searchGo comp n (pivot mask n) (clearBit mask (pivot mask n)) cur curPairs
              L hL t).bestScore : WithBot ℚ) =
            maxFold (fun j => (cur : WithBot ℚ) + ((comp (pivot mask n) j : WithBot ℚ) +
              opt comp (clearBit (clearBit mask (pivot mask n)) j))) L
              (t.bestScore : WithBot ℚ) ∧
          MemoOK comp n (searchGo comp n (pivot mask n) (clearBit mask (pivot mask n))
            cur curPairs L hL t).memo := by
        intro L
        induction L with
        | nil =>
          intro hL t ht
          rw [searchGo_nil, maxFold_nil]
          exact ⟨rfl, ht⟩
        | cons j rest ihL =>
          intro hL t ht
          rw [searchGo_cons]
          have hchild_lt : clearBit (clearBit mask (pivot mask n)) j < mask :=
            lt_of_le_of_lt (clearBit_le _ j) hm2lt
          have hchild_n : clearBit (clearBit mask (pivot mask n)) j < 2 ^ n :=
            lt_trans hchild_lt hlt
          obtain ⟨hb2, hm2ok⟩ := ih (clearBit (clearBit mask (pivot mask n)) j) hchild_lt
            hchild_n (cur + comp (pivot mask n) j) (curPairs ++ [(pivot mask n, j)])
            { t with allocations := t.allocations + 1 } ht
          obtain ⟨hb3, hm3ok⟩ := ihL (fun k hk => hL k (List.mem_cons_of_mem j hk))
            (search comp n (clearBit (clearBit mask (pivot mask n)) j)
              (cur + comp (pivot mask n) j) (curPairs ++ [(pivot mask n, j)])
              { t with allocations := t.allocations + 1 }) hm2ok
          refine ⟨?_, hm3ok⟩
          rw [hb3, maxFold_cons]
          congr 1
          rw [hb2]
          have htb : ({ t with allocations := t.allocations + 1 } : BnbState).bestScore =
            t.bestScore := rfl
          rw [htb, WithBot.coe_add, add_assoc]
      cases hmem : memoLookup mask s.memo with
      | some v =>
        have hv : v = compute_upper_bound mask comp n :=
          hmemo (mask, v) (memoLookup_mem mask s.memo v hmem)
        by_cases hp : cur + v ≤ s.bestScore
        · rw [search_hit_prune comp n mask cur curPairs s v h0 hmem hp]
          refine ⟨?_, hmemo⟩
          symm
          apply max_eq_left
          calc (cur : WithBot ℚ) + opt comp mask ≤
              (cur : WithBot ℚ) + ((compute_upper_bound mask comp n : ℚ) : WithBot ℚ) :=
                add_le_add_left hub_le _
            _ = ((cur + compute_upper_bound mask comp n : ℚ) : WithBot ℚ) :=
                (WithBot.coe_add _ _).symm
            _ ≤ (s.bestScore : WithBot ℚ) := WithBot.coe_le_coe.mpr (hv ▸ hp)
        · rw [search_hit_expand comp n mask cur curPairs s v h0 hmem hp]
          obtain ⟨hbG, hmG⟩ := go
            (List.insertionSort
              (fun a b => comp (pivot mask n) b ≤ comp (pivot mask n) a)
              ((List.range n).filter
                (fun j => (clearBit mask (pivot mask n)).testBit j)))
            (fun k hk => mem_sortedCandidates _ n k hk) s hmemo
          refine ⟨?_, hmG⟩
          rw [hbG, maxFold_init_eq]
          congr 1
          rw [maxFold_perm _ _ (bitsAsc (clearBit mask (pivot mask n)))
            (sortedCandidates_perm_bitsAsc comp (pivot mask n) n _ hm2n)]
          have hopt := opt_ne_zero comp mask h0
          have hlow : lowestSetBit mask = pivot mask n :=
            (pivot_eq_lowestSetBit mask n h0 hlt).symm
          rw [hlow] at hopt
          rw [hopt, add_maxFold]
          rw [WithBot.add_bot]
      | none =>
        by_cases hp : cur + compute_upper_bound mask comp n ≤ s.bestScore
        · rw [search_miss_prune comp n mask cur curPairs s h0 hmem hp]
          refine ⟨?_, memoOK_insert comp n mask s.memo hmemo⟩
          symm
          apply max_eq_left
          calc (cur : WithBot ℚ) + opt comp mask ≤
              (cur : WithBot ℚ) + ((compute_upper_bound mask comp n : ℚ) : WithBot ℚ) :=
                add_le_add_left hub_le _
            _ = ((cur + compute_upper_bound mask comp n : ℚ) : WithBot ℚ) :=
                (WithBot.coe_add _ _).symm
            _ ≤ (s.bestScore : WithBot ℚ) := WithBot.coe_le_coe.mpr hp
        · rw [search_miss_expand comp n mask cur curPairs s h0 hmem hp]
          obtain ⟨hbG, hmG⟩ := go
            (List.insertionSort
              (fun a b => comp (pivot mask n) b ≤ comp (pivot mask n) a)
              ((List.range n).filter
                (fun j => (clearBit mask (pivot mask n)).testBit j)))
            (fun k hk => mem_sortedCandidates _ n k hk)
            { s with memo := (mask, compute_upper_bound mask comp n) :: s.memo }
            (memoOK_insert comp n mask s.memo hmemo)
          refine ⟨?_, hmG⟩
          rw [hbG]
          have hsb : ({ s with memo := (mask, compute_upper_bound mask comp n) :: s.memo } :
            BnbState).bestScore = s.bestScore := rfl
          rw [hsb, maxFold_init_eq]
          congr 1
          rw [maxFold_perm _ _ (bitsAsc (clearBit mask (pivot mask n)))
            (sortedCandidates_perm_bitsAsc comp (pivot mask n) n _ hm2n)]
          have hopt := opt_ne_zero comp mask h0
          have hlow : lowestSetBit mask = pivot mask n :=
            (pivot_eq_lowestSetBit mask n h0 hlt).symm
          rw [hlow] at hopt
          rw [hopt, add_maxFold]
          rw [WithBot.add_bot]

theorem exh_score (comp : ℕ → ℕ → ℚ) (n : ℕ) :
    ∀ mask (cur : ℚ) (curPairs : List (ℕ × ℕ)) (s : ExhState),
      ((exhaustive_search comp n mask cur curPairs s).bestScore : WithBot ℚ) =
        max (s.bestScore : WithBot ℚ) ((cur : WithBot ℚ) + opt comp mask) := by
  intro mask
  induction mask using Nat.strong_induction_on with
  | _ mask ih =>
    intro cur curPairs s
    by_cases h0 : mask = 0
    · subst h0
      rw [exhaustive_search_zero, opt_zero]
      by_cases hbest : s.bestScore < cur
      · rw [if_pos hbest]
        show (cur : WithBot ℚ) =
          max (s.bestScore : WithBot ℚ) ((cur : WithBot ℚ) + ((0 : ℚ) : WithBot ℚ))
        rw [← WithBot.coe_add, add_zero]
        exact (max_eq_right (WithBot.coe_le_coe.mpr (le_of_lt hbest))).symm
      · rw [if_neg hbest]
        show (s.bestScore : WithBot ℚ) =
          max (s.bestScore : WithBot ℚ) ((cur : WithBot ℚ) + ((0 : ℚ) : WithBot ℚ))
        rw [← WithBot.coe_add, add_zero]
        exact (max_eq_left (WithBot.coe_le_coe.mpr (le_of_not_lt hbest))).symm
    · have hpiv : mask.testBit (pivot_exh mask) = true := testBit_pivot_exh mask h0
      have hm2lt : clearBit mask (pivot_exh mask) < mask :=
        clearBit_lt mask (pivot_exh mask) hpiv
      have go : ∀ (L : List ℕ) (t : ExhState),
          ((exhGo comp n (pivot_exh mask) (clearBit mask (pivot_exh mask)) cur curPairs
              L t).bestScore : WithBot ℚ) =
            maxFold (fun j => (cur : WithBot ℚ) + ((comp (pivot_exh mask) j : WithBot ℚ) +
              opt comp (clearBit (clearBit mask (pivot_exh mask)) j))) L
              (t.bestScore : WithBot ℚ) := by
        intro L
        induction L with
        | nil =>
          intro t
          rw [exhGo_nil, maxFold_nil]
        | cons j rest ihL =>
          intro t
          rw [exhGo_cons]
          have hchild_lt : clearBit (clearBit mask (pivot_exh mask)) j < mask :=
            lt_of_le_of_lt (clearBit_le _ j) hm2lt
          rw [ihL, maxFold_cons]
          congr 1
          rw [ih (clearBit (clearBit mask (pivot_exh mask)) j) hchild_lt
            (cur + comp (pivot_exh mask) j) (curPairs ++ [(pivot_exh mask, j)])
            { t with allocations := t.allocations + 1 }]
          have htb : ({ t with allocations := t.allocations + 1 } : ExhState).bestScore =
            t.bestScore := rfl
          rw [htb, WithBot.coe_add, add_assoc]
      rw [exhaustive_search_ne_zero comp n mask cur curPairs s h0, go, maxFold_init_eq]
      congr 1
      have hopt := opt_ne_zero comp mask h0
      have hlow : lowestSetBit mask = pivot_exh mask := (pivot_exh_eq mask h0).symm
      rw [hlow] at hopt
      rw [hopt, add_maxFold]
      rw [WithBot.add_bot]

theorem branch_and_bound_numba_bestScore (comp : ℕ → ℕ → ℚ) (n : ℕ) :
    (branch_and_bound_numba comp n).1 =
      (search comp n (fullMask n) 0 []
        { bestScore := initBest, bestPairs := [], memo := [], allocations := 0 }).bestScore :=
  rfl

theorem branch_and_bound_numba_coe_bestScore (comp : ℕ → ℕ → ℚ) (n : ℕ)
    (hsym : Symm comp n) :
    (((branch_and_bound_numba comp n).1 : ℚ) : WithBot ℚ) =
      max ((initBest : ℚ) : WithBot ℚ) (((0 : ℚ) : WithBot ℚ) + opt comp (fullMask n)) := by
  rw [branch_and_bound_numba_bestScore]
  exact (search_score comp n hsym (fullMask n) (fullMask_lt n) 0 []
    { bestScore := initBest, bestPairs := [], memo := [], allocations := 0 }
    (fun p hp => absurd hp (List.not_mem_nil p))).1

theorem exhaustive_search_wrapper_coe_bestScore (comp : ℕ → ℕ → ℚ) (n : ℕ) :
    (((exhaustive_search_wrapper comp n).1 : ℚ) : WithBot ℚ) =
      max ((initBest : ℚ) : WithBot ℚ) (((0 : ℚ) : WithBot ℚ) + opt comp (fullMask n)) :=
  exh_score comp n (fullMask n) 0 []
    { bestScore := initBest, bestPairs := [], allocations := 0 }

theorem maskCard_zero (n : ℕ) : maskCard n 0 = 0 := by
  unfold maskCard
  rw [Finset.filter_false_of_mem (fun i _ => by simp)]
  rfl

theorem pivot_lt_n (mask n : ℕ) (h0 : mask ≠ 0) (hlt : mask < 2 ^ n) :
    pivot mask n < n := by
  rw [pivot_eq_lowestSetBit mask n h0 hlt]
  exact testBit_lt_of_lt_two_pow mask _ n hlt (testBit_lowestSetBit mask h0)

theorem le_opt_of_even (comp : ℕ → ℕ → ℚ) (n : ℕ) (hnn : Nonneg comp n) :
    ∀ mask, mask < 2 ^ n → Even (maskCard n mask) →
      ((0 : ℚ) : WithBot ℚ) ≤ opt comp mask := by
  intro mask
  induction mask using Nat.strong_induction_on with
  | _ mask ih =>
    intro hlt heven
    by_cases h0 : mask = 0
    · subst h0
      rw [opt_zero]
    · have hibit : mask.testBit (lowestSetBit mask) = true := testBit_lowestSetBit mask h0
      have hin : lowestSetBit mask < n := testBit_lt_of_lt_two_pow mask _ n hlt hibit
      have hcard2 : maskCard n (clearBit mask (lowestSetBit mask)) =
          maskCard n mask - 1 := maskCard_clearBit n mask _ hibit hin
      have hcpos : 0 < maskCard n mask := maskCard_pos n mask _ hibit hin
      have hcard_ge2 : 2 ≤ maskCard n mask := by
        rcases heven with ⟨c, hc⟩
        omega
      have hm2pos : 0 < maskCard n (clearBit mask (lowestSetBit mask)) := by omega
      obtain ⟨j, hj⟩ := Finset.card_pos.mp hm2pos
      rw [Finset.mem_filter, Finset.mem_range] at hj
      obtain ⟨hjn, hjbit⟩ := hj
      have hjmem : j ∈ bitsAsc (clearBit mask (lowestSetBit mask)) :=
        (mem_bitsAsc _ j).mpr hjbit
      have hchild_card : maskCard n (clearBit (clearBit mask (lowestSetBit mask)) j) =
          maskCard n mask - 2 := by
        rw [maskCard_clearBit n _ j hjbit hjn]
        omega
      have hchild_lt : clearBit (clearBit mask (lowestSetBit mask)) j < mask :=
        lt_of_le_of_lt (clearBit_le _ j) (clearBit_lt mask _ hibit)
      have hchild_n : clearBit (clearBit mask (lowestSetBit mask)) j < 2 ^ n :=
        lt_trans hchild_lt hlt
      have hchild_even : Even (maskCard n (clearBit (clearBit mask (lowestSetBit mask)) j)) := by
        rw [hchild_card]
        rcases heven with ⟨c, hc⟩
        refine ⟨c - 1, ?_⟩
        omega
      have hrec := ih _ hchild_lt hchild_n hchild_even
      have hw : (0 : ℚ) ≤ comp (lowestSetBit mask) j := hnn _ hin j hjn
      rw [opt_ne_zero comp mask h0]
      refine le_trans ?_ (le_maxFold_of_mem _ _ ⊥ j hjmem)
      calc ((0 : ℚ) : WithBot ℚ) = ((0 : ℚ) : WithBot ℚ) + ((0 : ℚ) : WithBot ℚ) := by
            rw [← WithBot.coe_add, add_zero]
        _ ≤ ((comp (lowestSetBit mask) j : ℚ) : WithBot ℚ) +
              opt comp (clearBit (clearBit mask (lowestSetBit mask)) j) :=
            add_le_add (WithBot.coe_le_coe.mpr hw) hrec

/-- Invariant of the Best-Solution tracker: either it still holds the
initial sentinel with an empty pairing, or it holds a perfect pairing of
the full state. -/
def GoodBest (n : ℕ) (s : BnbState) : Prop :=
  (s.bestScore = initBest ∧ s.bestPairs = []) ∨
    IsPairingOf s.bestPairs (fullMask n) = true

theorem search_pairs (comp : ℕ → ℕ → ℚ) (n : ℕ) :
    ∀ mask, mask < 2 ^ n → ∀ (cur : ℚ) (curPairs : List (ℕ × ℕ)) (s : BnbState),
      (∀ M, IsPairingOf M mask = true → IsPairingOf (curPairs ++ M) (fullMask n) = true) →
      GoodBest n s → GoodBest n (search comp n mask cur curPairs s) := by
  intro mask
  induction mask using Nat.strong_induction_on with
  | _ mask ih =>
    intro hlt cur curPairs s hcur hgood
    by_cases h0 : mask = 0
    · subst h0
      rw [search_zero]
      by_cases hbest : s.bestScore < cur
      · rw [if_pos hbest]
        right
        show IsPairingOf curPairs (fullMask n) = true
        have := hcur [] (by rw [isPairingOf_nil_iff])
        rwa [List.append_nil] at this
      · rw [if_neg hbest]
        exact hgood
    · have hpiv : mask.testBit (pivot mask n) = true := testBit_pivot mask n h0 hlt
      have go : ∀ (L : List ℕ)
          (hL : ∀ j, j ∈ L → (clearBit mask (pivot mask n)).testBit j = true)
          (t : BnbState), GoodBest n t →
          GoodBest n (searchGo comp n (pivot mask n) (clearBit mask (pivot mask n))
            cur curPairs L hL t) := by
        intro L
        induction L with
        | nil =>
          intro hL t ht
          rw [searchGo_nil]
          exact ht
        | cons j rest ihL =>
          intro hL t ht
          rw [searchGo_cons]
          have hjbit : (clearBit mask (pivot mask n)).testBit j = true :=
            hL j (List.mem_cons_self j rest)
          have hij : pivot mask n ≠ j := by
            intro he
            rw [← he, testBit_clearBit, if_pos rfl] at hjbit
            exact Bool.false_ne_true hjbit
          have hjmask : mask.testBit j = true := clearBit_ne_zero_iff mask _ j hjbit
          have hchild_lt : clearBit (clearBit mask (pivot mask n)) j < mask :=
            lt_of_lt_of_le (clearBit_lt _ j hjbit) (clearBit_le mask _)
          have hchild_n : clearBit (clearBit mask (pivot mask n)) j < 2 ^ n :=
            lt_trans hchild_lt hlt
          have hcur2 : ∀ M, IsPairingOf M (clearBit (clearBit mask (pivot mask n)) j) = true →
              IsPairingOf ((curPairs ++ [(pivot mask n, j)]) ++ M) (fullMask n) = true := by
            intro M hM
            rw [List.append_assoc, List.singleton_append]
            refine hcur ((pivot mask n, j) :: M) ?_
            rw [isPairingOf_cons_iff]
            exact ⟨hij, hpiv, hjmask, hM⟩
          have ht2 : GoodBest n { t with allocations := t.allocations + 1 } := ht
          exact ihL (fun k hk => hL k (List.mem_cons_of_mem j hk)) _
            (ih _ hchild_lt hchild_n (cur + comp (pivot mask n) j)
              (curPairs ++ [(pivot mask n, j)])
              { t with allocations := t.allocations + 1 } hcur2 ht2)
      cases hmem : memoLookup mask s.memo with
      | some v =>
        by_cases hp : cur + v ≤ s.bestScore
        · rw [search_hit_prune comp n mask cur curPairs s v h0 hmem hp]
          exact hgood
        · rw [search_hit_expand comp n mask cur curPairs s v h0 hmem hp]
          exact go _ _ s hgood
      | none =>
        by_cases hp : cur + compute_upper_bound mask comp n ≤ s.bestScore
        · rw [search_miss_prune comp n mask cur curPairs s h0 hmem hp]
          exact hgood
        · rw [search_miss_expand comp n mask cur curPairs s h0 hmem hp]
          refine go _ _ _ ?_
          exact hgood

theorem search_best_mono (comp : ℕ → ℕ → ℚ) (n : ℕ) :
    ∀ mask (cur : ℚ) (curPairs : List (ℕ × ℕ)) (s : BnbState),
      s.bestScore ≤ (search comp n mask cur curPairs s).bestScore ∧
      ((search comp n mask cur curPairs s).bestPairs ≠ s.bestPairs →
        s.bestScore < (search comp n mask cur curPairs s).bestScore) := by
  intro mask
  induction mask using Nat.strong_induction_on with
  | _ mask ih =>
    intro cur curPairs s
    by_cases h0 : mask = 0
    · subst h0
      rw [search_zero]
      by_cases hbest : s.bestScore < cur
      · rw [if_pos hbest]
        exact ⟨le_of_lt hbest, fun _ => hbest⟩
      · rw [if_neg hbest]
        exact ⟨le_refl _, fun h => absurd rfl h⟩
    · have go : ∀ (L : List ℕ)
          (hL : ∀ j, j ∈ L → (clearBit mask (pivot mask n)).testBit j = true)
          (t : BnbState),
          t.bestScore ≤ (searchGo comp n (pivot mask n) (clearBit mask (pivot mask n))
            cur curPairs L hL t).bestScore ∧
          ((searchGo comp n (pivot mask n) (clearBit mask (pivot mask n))
            cur curPairs L hL t).bestPairs ≠ t.bestPairs →
            t.bestScore < (searchGo comp n (pivot mask n) (clearBit mask (pivot mask n))
              cur curPairs L hL t).bestScore) := by
        intro L
        induction L with
        | nil =>
          intro hL t
          rw [searchGo_nil]
          exact ⟨le_refl _, fun h => absurd rfl h⟩
        | cons j rest ihL =>
          intro hL t
          rw [searchGo_cons]
          have hjbit : (clearBit mask (pivot mask n)).testBit j = true :=
            hL j (List.mem_cons_self j rest)
          have hchild_lt : clearBit (clearBit mask (pivot mask n)) j < mask :=
            lt_of_lt_of_le (clearBit_lt _ j hjbit) (clearBit_le mask _)
          obtain ⟨hle1, hlt1⟩ := ih _ hchild_lt (cur + comp (pivot mask n) j)
            (curPairs ++ [(pivot mask n, j)]) { t with allocations := t.allocations + 1 }
          obtain ⟨hle2, hlt2⟩ := ihL (fun k hk => hL k (List.mem_cons_of_mem j hk))
            (search comp n (clearBit (clearBit mask (pivot mask n)) j)
              (cur + comp (pivot mask n) j) (curPairs ++ [(pivot mask n, j)])
              { t with allocations := t.allocations + 1 })
          have htb : ({ t with allocations := t.allocations + 1 } : BnbState).bestScore =
            t.bestScore := rfl
          have htp : ({ t with allocations := t.allocations + 1 } : BnbState).bestPairs =
            t.bestPairs := rfl
          rw [htb] at hle1 hlt1
          refine ⟨le_trans hle1 hle2, fun hne => ?_⟩
          by_cases hmid : (search comp n (clearBit (clearBit mask (pivot mask n)) j)
              (cur + comp (pivot mask n) j) (curPairs ++ [(pivot mask n, j)])
              { t with allocations := t.allocations + 1 }).bestPairs = t.bestPairs
          · exact lt_of_le_of_lt hle1 (hlt2 (fun h => hne (h.trans hmid)))
          · exact lt_of_lt_of_le (hlt1 (fun h => hmid (h.trans htp))) hle2
      cases hmem : memoLookup mask s.memo with
      | some v =>
        by_cases hp : cur + v ≤ s.bestScore
        · rw [search_hit_prune comp n mask cur curPairs s v h0 hmem hp]
          exact ⟨le_refl _, fun h => absurd rfl h⟩
        · rw [search_hit_expand comp n mask cur curPairs s v h0 hmem hp]
          exact go _ _ s
      | none =>
        by_cases hp : cur + compute_upper_bound mask comp n ≤ s.bestScore
        · rw [search_miss_prune comp n mask cur curPairs s h0 hmem hp]
          exact ⟨le_refl _, fun h => absurd rfl h⟩
        · rw [search_miss_expand comp n mask cur curPairs s h0 hmem hp]
          exact go _ _ _


theorem search_odd_unchanged (comp : ℕ → ℕ → ℚ) (n : ℕ) :
    ∀ mask, mask < 2 ^ n → Odd (maskCard n mask) →
      ∀ (cur : ℚ) (curPairs : List (ℕ × ℕ)) (s : BnbState),
        (search comp n mask cur curPairs s).bestScore = s.bestScore ∧
        (search comp n mask cur curPairs s).bestPairs = s.bestPairs := by
  intro mask
  induction mask using Nat.strong_induction_on with
  | _ mask ih =>
    intro hlt hodd cur curPairs s
    by_cases h0 : mask = 0
    · exfalso
      rw [h0, maskCard_zero] at hodd
      have := Nat.odd_iff.mp hodd
      omega
    · have hpiv : mask.testBit (pivot mask n) = true := testBit_pivot mask n h0 hlt
      have hpn : pivot mask n < n := pivot_lt_n mask n h0 hlt
      have hm2card : maskCard n (clearBit mask (pivot mask n)) = maskCard n mask - 1 :=
        maskCard_clearBit n mask _ hpiv hpn
      have hm2n : clearBit mask (pivot mask n) < 2 ^ n :=
        lt_of_le_of_lt (clearBit_le mask _) hlt
      have go : ∀ (L : List ℕ)
          (hL : ∀ j, j ∈ L → (clearBit mask (pivot mask n)).testBit j = true)
          (t : BnbState),
          (searchGo comp n (pivot mask n) (clearBit mask (pivot mask n))
            cur curPairs L hL t).bestScore = t.bestScore ∧
          (searchGo comp n (pivot mask n) (clearBit mask (pivot mask n))
            cur curPairs L hL t).bestPairs = t.bestPairs := by
        intro L
        induction L with
        | nil =>
          intro hL t
          rw [searchGo_nil]
          exact ⟨rfl, rfl⟩
        | cons j rest ihL =>
          intro hL t
          rw [searchGo_cons]
          have hjbit : (clearBit mask (pivot mask n)).testBit j = true :=
            hL j (List.mem_cons_self j rest)
          have hjn : j < n := testBit_lt_of_lt_two_pow _ j n hm2n hjbit
          have hm2pos : 0 < maskCard n (clearBit mask (pivot mask n)) :=
            maskCard_pos n _ j hjbit hjn
          have hchild_card : maskCard n (clearBit (clearBit mask (pivot mask n)) j) =
              maskCard n (clearBit mask (pivot mask n)) - 1 :=
            maskCard_clearBit n _ j hjbit hjn
          have hchild_lt : clearBit (clearBit mask (pivot mask n)) j < mask :=
            lt_of_lt_of_le (clearBit_lt _ j hjbit) (clearBit_le mask _)
          have hchild_n : clearBit (clearBit mask (pivot mask n)) j < 2 ^ n :=
            lt_trans hchild_lt hlt
          have hchild_odd : Odd (maskCard n (clearBit (clearBit mask (pivot mask n)) j)) := by
            have hom := Nat.odd_iff.mp hodd
            refine Nat.odd_iff.mpr ?_
            omega
          obtain ⟨hb1, hp1⟩ := ih _ hchild_lt hchild_n hchild_odd
            (cur + comp (pivot mask n) j) (curPairs ++ [(pivot mask n, j)])
            { t with allocations := t.allocations + 1 }
          obtain ⟨hb2, hp2⟩ := ihL (fun k hk => hL k (List.mem_cons_of_mem j hk))
            (search comp n (clearBit (clearBit mask (pivot mask n)) j)
              (cur + comp (pivot mask n) j) (curPairs ++ [(pivot mask n, j)])
              { t with allocations := t.allocations + 1 })
          refine ⟨?_, ?_⟩
          · rw [hb2, hb1]
          · rw [hp2, hp1]
      cases hmem : memoLookup mask s.memo with
      | some v =>
        by_cases hp : cur + v ≤ s.bestScore
        · rw [search_hit_prune comp n mask cur curPairs s v h0 hmem hp]
          exact ⟨rfl, rfl⟩
        · rw [search_hit_expand comp n mask cur curPairs s v h0 hmem hp]
          exact go _ _ s
      | none =>
        by_cases hp : cur + compute_upper_bound mask comp n ≤ s.bestScore
        · rw [search_miss_prune comp n mask cur curPairs s h0 hmem hp]
          exact ⟨rfl, rfl⟩
        · rw [search_miss_expand comp n mask cur curPairs s h0 hmem hp]
          exact go _ _ _

theorem allocCount_zero : allocCount 0 = 0 := by
  rw [allocCount]
  simp

theorem allocCount_ne_zero (mask : ℕ) (h : mask ≠ 0) :
    allocCount mask =
      allocGo (clearBit mask (lowestSetBit mask))
        (bitsAsc (clearBit mask (lowestSetBit mask))) := by
  rw [allocCount, dif_neg h]

theorem allocGo_nil (m2 : ℕ) : allocGo m2 [] = 0 := by
  rw [allocGo]

theorem allocGo_cons (m2 j : ℕ) (rest : List ℕ) :
    allocGo m2 (j :: rest) = 1 + allocCount (clearBit m2 j) + allocGo m2 rest := by
  rw [allocGo]

theorem allocGo_perm (m2 : ℕ) (L1 L2 : List ℕ) (h : List.Perm L1 L2) :
    allocGo m2 L1 = allocGo m2 L2 := by
  induction h with
  | nil => rfl
  | cons x _ ih =>
    rw [allocGo_cons, allocGo_cons, ih]
  | swap x y L =>
    rw [allocGo_cons, allocGo_cons, allocGo_cons, allocGo_cons]
    omega
  | trans _ _ ih1 ih2 =>
    rw [ih1, ih2]

theorem exh_alloc (comp : ℕ → ℕ → ℚ) (n : ℕ) :
    ∀ mask (cur : ℚ) (curPairs : List (ℕ × ℕ)) (s : ExhState),
      (exhaustive_search comp n mask cur curPairs s).allocations =
        s.allocations + allocCount mask := by
  intro mask
  induction mask using Nat.strong_induction_on with
  | _ mask ih =>
    intro cur curPairs s
    by_cases h0 : mask = 0
    · subst h0
      rw [exhaustive_search_zero, allocCount_zero]
      by_cases hbest : s.bestScore < cur
      · rw [if_pos hbest]
        show s.allocations = s.allocations + 0
        omega
      · rw [if_neg hbest]
        omega
    · have hpiv : mask.testBit (pivot_exh mask) = true := testBit_pivot_exh mask h0
      have hm2lt : clearBit mask (pivot_exh mask) < mask :=
        clearBit_lt mask (pivot_exh mask) hpiv
      have go : ∀ (L : List ℕ) (t : ExhState),
          (exhGo comp n (pivot_exh mask) (clearBit mask (pivot_exh mask)) cur curPairs
            L t).allocations =
            t.allocations + allocGo (clearBit mask (pivot_exh mask)) L := by
        intro L
        induction L with
        | nil =>
          intro t
          rw [exhGo_nil, allocGo_nil]
          omega
        | cons j rest ihL =>
          intro t
          rw [exhGo_cons, ihL, allocGo_cons]
          have hchild_lt : clearBit (clearBit mask (pivot_exh mask)) j < mask :=
            lt_of_le_of_lt (clearBit_le _ j) hm2lt
          rw [ih _ hchild_lt (cur + comp (pivot_exh mask) j)
            (curPairs ++ [(pivot_exh mask, j)]) { t with allocations := t.allocations + 1 }]
          have : ({ t with allocations := t.allocations + 1 } : ExhState).allocations =
            t.allocations + 1 := rfl
          rw [this]
          omega
      rw [exhaustive_search_ne_zero comp n mask cur curPairs s h0, go,
        allocCount_ne_zero mask h0, pivot_exh_eq mask h0]

theorem search_alloc_le (comp : ℕ → ℕ → ℚ) (n : ℕ) :
    ∀ mask, mask < 2 ^ n → ∀ (cur : ℚ) (curPairs : List (ℕ × ℕ)) (s : BnbState),
      (search comp n mask cur curPairs s).allocations ≤
        s.allocations + allocCount mask := by
  intro mask
  induction mask using Nat.strong_induction_on with
  | _ mask ih =>
    intro hlt cur curPairs s
    by_cases h0 : mask = 0
    · subst h0
      rw [search_zero]
      by_cases hbest : s.bestScore < cur
      · rw [if_pos hbest]
        exact Nat.le_add_right _ _
      · rw [if_neg hbest]
        exact Nat.le_add_right _ _
    · have hpiv : mask.testBit (pivot mask n) = true := testBit_pivot mask n h0 hlt
      have hm2lt : clearBit mask (pivot mask n) < mask := clearBit_lt mask _ hpiv
      have hm2n : clearBit mask (pivot mask n) < 2 ^ n := lt_trans hm2lt hlt
      have go : ∀ (L : List ℕ)
          (hL : ∀ j, j ∈ L → (clearBit mask (pivot mask n)).testBit j = true)
          (t : BnbState),
          (searchGo comp n (pivot mask n) (clearBit mask (pivot mask n)) cur curPairs
            L hL t).allocations ≤
            t.allocations + allocGo (clearBit mask (pivot mask n)) L := by
        intro L
        induction L with
        | nil =>
          intro hL t
          rw [searchGo_nil, allocGo_nil]
          omega
        | cons j rest ihL =>
          intro hL t
          rw [searchGo_cons, allocGo_cons]
          have hjbit : (clearBit mask (pivot mask n)).testBit j = true :=
            hL j (List.mem_cons_self j rest)
          have hchild_lt : clearBit (clearBit mask (pivot mask n)) j < mask :=
            lt_of_lt_of_le (clearBit_lt _ j hjbit) (clearBit_le mask _)
          have hchild_n : clearBit (clearBit mask (pivot mask n)) j < 2 ^ n :=
            lt_trans hchild_lt hlt
          have h1 := ih _ hchild_lt hchild_n (cur + comp (pivot mask n) j)
            (curPairs ++ [(pivot mask n, j)]) { t with allocations := t.allocations + 1 }
          have h2 := ihL (fun k hk => hL k (List.mem_cons_of_mem j hk))
            (search comp n (clearBit (clearBit mask (pivot mask n)) j)
              (cur + comp (pivot mask n) j) (curPairs ++ [(pivot mask n, j)])
              { t with allocations := t.allocations + 1 })
          have h3 : ({ t with allocations := t.allocations + 1 } : BnbState).allocations =
            t.allocations + 1 := rfl
          rw [h3] at h1
          omega
      have hperm : List.Perm
          (List.insertionSort
            (fun a b => comp (pivot mask n) b ≤ comp (pivot mask n) a)
            ((List.range n).filter
              (fun j => (clearBit mask (pivot mask n)).testBit j)))
          (bitsAsc (clearBit mask (pivot mask n))) :=
        sortedCandidates_perm_bitsAsc comp (pivot mask n) n _ hm2n
      have hcount : allocGo (clearBit mask (pivot mask n))
          (List.insertionSort
            (fun a b => comp (pivot mask n) b ≤ comp (pivot mask n) a)
            ((List.range n).filter
              (fun j => (clearBit mask (pivot mask n)).testBit j))) =
          allocCount mask := by
        rw [allocGo_perm _ _ _ hperm, allocCount_ne_zero mask h0,
          pivot_eq_lowestSetBit mask n h0 hlt]
      cases hmem : memoLookup mask s.memo with
      | some v =>
        by_cases hp : cur + v ≤ s.bestScore
        · rw [search_hit_prune comp n mask cur curPairs s v h0 hmem hp]
          exact Nat.le_add_right _ _
        · rw [search_hit_expand comp n mask cur curPairs s v h0 hmem hp]
          have := go
            (List.insertionSort
              (fun a b => comp (pivot mask n) b ≤ comp (pivot mask n) a)
              ((List.range n).filter
                (fun j => (clearBit mask (pivot mask n)).testBit j)))
            (fun k hk => mem_sortedCandidates _ n k hk) s
          rw [hcount] at this
          exact this
      | none =>
        by_cases hp : cur + compute_upper_bound mask comp n ≤ s.bestScore
        · rw [search_miss_prune comp n mask cur curPairs s h0 hmem hp]
          exact Nat.le_add_right _ _
        · rw [search_miss_expand comp n mask cur curPairs s h0 hmem hp]
          have := go
            (List.insertionSort
              (fun a b => comp (pivot mask n) b ≤ comp (pivot mask n) a)
              ((List.range n).filter
                (fun j => (clearBit mask (pivot mask n)).testBit j)))
            (fun k hk => mem_sortedCandidates _ n k hk)
            { s with memo := (mask, compute_upper_bound mask comp n) :: s.memo }
          rw [hcount] at this
          have hsa : ({ s with memo := (mask, compute_upper_bound mask comp n) :: s.memo } :
            BnbState).allocations = s.allocations := rfl
          rw [hsa] at this
          exact this

theorem idCount_of_isPairingOf :
    ∀ (M : List (ℕ × ℕ)) (mask : ℕ), IsPairingOf M mask = true →
      ∀ k, idCount k M = if mask.testBit k = true then 1 else 0 := by
  intro M
  induction M with
  | nil =>
    intro mask hp k
    rw [(isPairingOf_nil_iff mask).mp hp]
    simp [idCount, Nat.zero_testBit]
  | cons p M ih =>
    obtain ⟨i, j⟩ := p
    intro mask hp k
    obtain ⟨hij, hi, hj, hrec⟩ := (isPairingOf_cons_iff i j M mask).mp hp
    have hC := ih _ hrec k
    have hbit : (clearBit (clearBit mask i) j).testBit k =
        (if k = j then false else if k = i then false else mask.testBit k) := by
      rw [testBit_clearBit, testBit_clearBit]
    rw [idCount, hC, hbit]
    by_cases hki : k = i
    · subst hki
      have h1 : ¬(j = k) := fun he => hij he.symm
      have h2 : ¬(k = j) := hij
      simp only [if_pos rfl, if_neg h1, if_neg h2, hi]
      norm_num
    · by_cases hkj : k = j
      · subst hkj
        have h1 : ¬(i = k) := hij
        simp only [if_neg h1, if_pos rfl, hj]
        norm_num
      · have h1 : ¬(i = k) := fun he => hki he.symm
        have h2 : ¬(j = k) := fun he => hkj he.symm
        simp only [if_neg h1, if_neg h2, if_neg hki, if_neg hkj]
        by_cases hb : mask.testBit k = true
        · simp [hb]
        · simp [hb]

theorem isPairingOf_ne :
    ∀ (M : List (ℕ × ℕ)) (mask : ℕ), IsPairingOf M mask = true →
      ∀ p, p ∈ M → p.1 ≠ p.2 := by
  intro M
  induction M with
  | nil =>
    intro mask _ p hp
    simp at hp
  | cons q M ih =>
    obtain ⟨i, j⟩ := q
    intro mask hp p hpm
    obtain ⟨hij, _, _, hrec⟩ := (isPairingOf_cons_iff i j M mask).mp hp
    rcases List.mem_cons.mp hpm with he | hm
    · rw [he]
      exact hij
    · exact ih _ hrec p hm

theorem reachable_lt (comp : ℕ → ℕ → ℚ) (n : ℕ) :
    ∀ mask, Reachable comp n mask → mask < 2 ^ n := by
  intro mask h
  induction h with
  | init => exact fullMask_lt n
  | step mask j _ _ _ ih =>
    exact lt_of_le_of_lt (le_trans (clearBit_le _ _) (clearBit_le _ _)) ih

theorem reachable_even (comp : ℕ → ℕ → ℚ) (n : ℕ) (hn : Even n) :
    ∀ mask, Reachable comp n mask → Even (maskCard n mask) := by
  intro mask h
  induction h with
  | init =>
    rw [maskCard_fullMask]
    exact hn
  | step mask j hr h0 hj ih =>
    have hlt : mask < 2 ^ n := reachable_lt comp n mask hr
    have hpiv : mask.testBit (pivot mask n) = true := testBit_pivot mask n h0 hlt
    have hpn : pivot mask n < n := pivot_lt_n mask n h0 hlt
    have hjbit : (clearBit mask (pivot mask n)).testBit j = true :=
      mem_sortedCandidates _ n j hj
    have hjn : j < n := testBit_lt_of_lt_two_pow _ j n
      (lt_of_le_of_lt (clearBit_le mask _) hlt) hjbit
    have h1 : maskCard n (clearBit mask (pivot mask n)) = maskCard n mask - 1 :=
      maskCard_clearBit n mask _ hpiv hpn
    have h2 : maskCard n (clearBit (clearBit mask (pivot mask n)) j) =
        maskCard n (clearBit mask (pivot mask n)) - 1 :=
      maskCard_clearBit n _ j hjbit hjn
    have h3 : 0 < maskCard n (clearBit mask (pivot mask n)) :=
      maskCard_pos n _ j hjbit hjn
    have hie := Nat.even_iff.mp ih
    refine Nat.even_iff.mpr ?_
    omega

theorem bnb_pairs_eq (comp : ℕ → ℕ → ℚ) (n : ℕ) :
    (branch_and_bound_numba comp n).2.1 =
      (search comp n (fullMask n) 0 []
        { bestScore := initBest, bestPairs := [], memo := [], allocations := 0 }).bestPairs :=
  rfl

theorem bnb_alloc_eq (comp : ℕ → ℕ → ℚ) (n : ℕ) :
    (branch_and_bound_numba comp n).2.2 =
      (search comp n (fullMask n) 0 []
        { bestScore := initBest, bestPairs := [], memo := [], allocations := 0 }).allocations :=
  rfl

theorem initBest_neg : initBest < 0 := by
  norm_num [initBest]

theorem bnb_best_nonneg (comp : ℕ → ℕ → ℚ) (n : ℕ) (heven : Even n)
    (hsym : Symm comp n) (hnn : Nonneg comp n) :
    0 ≤ (branch_and_bound_numba comp n).1 := by
  have h1 := branch_and_bound_numba_coe_bestScore comp n hsym
  have h2 : ((0 : ℚ) : WithBot ℚ) ≤ opt comp (fullMask n) := by
    refine le_opt_of_even comp n hnn (fullMask n) (fullMask_lt n) ?_
    rw [maskCard_fullMask]
    exact heven
  have h3 : ((0 : ℚ) : WithBot ℚ) ≤ ((branch_and_bound_numba comp n).1 : WithBot ℚ) := by
    rw [h1]
    refine le_trans h2 (le_trans ?_ (le_max_right _ _))
    rw [WithBot.coe_zero, zero_add]
  exact WithBot.coe_le_coe.mp h3

theorem bnb_isPairing (comp : ℕ → ℕ → ℚ) (n : ℕ) (heven : Even n)
    (hsym : Symm comp n) (hnn : Nonneg comp n) :
    IsPairingOf (branch_and_bound_numba comp n).2.1 (fullMask n) = true := by
  have hg : GoodBest n (search comp n (fullMask n) 0 []
      { bestScore := initBest, bestPairs := [], memo := [], allocations := 0 }) := by
    refine search_pairs comp n (fullMask n) (fullMask_lt n) 0 [] _ ?_ ?_
    · intro M hM
      rwa [List.nil_append]
    · exact Or.inl ⟨rfl, rfl⟩
  rw [bnb_pairs_eq]
  rcases hg with ⟨hbs, _⟩ | hp
  · exfalso
    have h0 := bnb_best_nonneg comp n heven hsym hnn
    rw [branch_and_bound_numba_bestScore, hbs] at h0
    exact absurd (lt_of_le_of_lt h0 initBest_neg) (lt_irrefl 0)
  · exact hp

theorem fullMask64_eq (n : ℕ) :
    fullMask64 n = if n ≤ 64 then 2 ^ n - 1 else 2 ^ 64 - 1 := by
  unfold fullMask64
  by_cases h : n ≤ 64
  · rw [if_pos h]
    apply Nat.mod_eq_of_lt
    have h1 : (2 : ℕ) ^ n ≤ 2 ^ 64 := Nat.pow_le_pow_right (by norm_num) h
    have h2 : (1 : ℕ) ≤ 2 ^ n := Nat.one_le_two_pow
    omega
  · rw [if_neg h]
    have h1 : (2 : ℕ) ^ n = 2 ^ (n - 64) * 2 ^ 64 := by
      rw [← pow_add]
      congr 1
      omega
    have h2 : (1 : ℕ) ≤ 2 ^ (n - 64) := Nat.one_le_two_pow
    have h3 : (1 : ℕ) ≤ 2 ^ 64 := Nat.one_le_two_pow
    have h4 : (2 : ℕ) ^ 64 ≤ 2 ^ (n - 64) * 2 ^ 64 :=
      Nat.le_mul_of_pos_left _ (by omega)
    have h5 : (2 ^ (n - 64) - 1) * 2 ^ 64 = 2 ^ (n - 64) * 2 ^ 64 - 2 ^ 64 := by
      rw [Nat.sub_mul, one_mul]
    have h6 : 2 ^ n - 1 = (2 ^ (n - 64) - 1) * 2 ^ 64 + (2 ^ 64 - 1) := by
      rw [h5, h1]
      omega
    rw [h6, Nat.add_comm, Nat.add_mul_mod_self_right, Nat.mod_eq_of_lt (by omega)]

/-- All-zero weight matrix (concrete instance). -/
def zeroMat : ℕ → ℕ → ℚ := fun _ _ => 0

/-- All-one weight matrix (concrete instance). -/
def oneMat : ℕ → ℕ → ℚ := fun _ _ => 1

/-- Matrix whose every weight is `-1e9` (concrete instance with very
negative weights). -/
def negMat : ℕ → ℕ → ℚ := fun _ _ => -(10 ^ 9)

theorem lowestSetBit_one : lowestSetBit 1 = 0 := by
  rw [lowestSetBit]
  norm_num

theorem lowestSetBit_two : lowestSetBit 2 = 1 := by
  rw [lowestSetBit]
  norm_num [lowestSetBit_one]

theorem lowestSetBit_three : lowestSetBit 3 = 0 := by
  rw [lowestSetBit]
  norm_num

theorem pivot_exh_two : pivot_exh 2 = 1 := by
  rw [pivot_exh_eq 2 (by norm_num), lowestSetBit_two]

theorem bitsAsc_two : bitsAsc 2 = [1] := by
  rw [bitsAsc, dif_neg (by norm_num : ¬(2 = 0)), pivot_exh_two,
    (by decide : clearBit 2 1 = 0), bitsAsc_zero]

theorem opt_negMat_three : opt negMat 3 = ((initBest : ℚ) : WithBot ℚ) := by
  rw [opt_ne_zero negMat 3 (by norm_num), lowestSetBit_three,
    (by decide : clearBit 3 0 = 2), bitsAsc_two]
  simp only [maxFold_cons, maxFold_nil]
  rw [(by decide : clearBit 2 1 = 0), opt_zero, max_eq_right bot_le, ← WithBot.coe_add]
  norm_num [negMat, initBest]

/-- C1: for every even `n` and symmetric non-negative weight matrix, the
branch-and-bound solver returns the same best score as the exhaustive
enumeration oracle on the same input. -/
theorem bnb_bestScore_eq_exhaustive (comp : ℕ → ℕ → ℚ) (n : ℕ) (heven : Even n)
    (hsym : Symm comp n) (hnn : Nonneg comp n) :
    (branch_and_bound_numba comp n).1 = (exhaustive_search_wrapper comp n).1 := by
  have h1 := branch_and_bound_numba_coe_bestScore comp n hsym
  have h2 := exhaustive_search_wrapper_coe_bestScore comp n
  rw [← h2] at h1
  exact WithBot.coe_inj.mp h1

theorem bnb_bestScore_eq_exhaustive_witness :
    Even 2 ∧ Symm oneMat 2 ∧ Nonneg oneMat 2 ∧
    (branch_and_bound_numba oneMat 2).1 = (exhaustive_search_wrapper oneMat 2).1 :=
  ⟨by decide, fun i _ j _ => rfl, fun i _ j _ => by norm_num [oneMat],
    bnb_bestScore_eq_exhaustive oneMat 2 (by decide) (fun i _ j _ => rfl)
      (fun i _ j _ => by norm_num [oneMat])⟩

/-- C2: for every state and symmetric non-negative weight matrix, the
value of `compute_upper_bound` is at least the total score of every
perfect matching of the entities of the state. -/
theorem compute_upper_bound_sound (comp : ℕ → ℕ → ℚ) (n mask : ℕ)
    (M : List (ℕ × ℕ)) (hsym : Symm comp n) (hnn : Nonneg comp n)
    (hlt : mask < 2 ^ n) (hM : IsPairingOf M mask = true) :
    scoreOf comp M ≤ compute_upper_bound mask comp n :=
  scoreOf_le_upper_bound comp n hsym M mask hlt hM

theorem compute_upper_bound_sound_witness :
    Symm oneMat 2 ∧ Nonneg oneMat 2 ∧ 3 < 2 ^ 2 ∧
    IsPairingOf [(0, 1)] 3 = true ∧
    scoreOf oneMat [(0, 1)] ≤ compute_upper_bound 3 oneMat 2 :=
  ⟨fun i _ j _ => rfl, fun i _ j _ => by norm_num [oneMat], by decide, by decide,
    compute_upper_bound_sound oneMat 2 3 [(0, 1)] (fun i _ j _ => rfl)
      (fun i _ j _ => by norm_num [oneMat]) (by decide) (by decide)⟩

/-- C3 (counterexample): for the odd input `n = 3` with the all-zero
matrix, the solver does not raise any error: `branch_and_bound_numba` is
a total function (the Python source contains no `raise` statement and no
input validation) and it returns normally with the untouched sentinel
score `-1e9` and an empty pairing, contradicting the claim that an
`InvalidInputError` is raised before the search begins. -/
theorem odd_n_counterexample :
    (branch_and_bound_numba zeroMat 3).1 = initBest ∧
    (branch_and_bound_numba zeroMat 3).2.1 = [] := by
  have h := search_odd_unchanged zeroMat 3 (fullMask 3) (fullMask_lt 3)
    (by rw [maskCard_fullMask]; decide) 0 []
    { bestScore := initBest, bestPairs := [], memo := [], allocations := 0 }
  exact ⟨by rw [branch_and_bound_numba_bestScore]; exact h.1,
    by rw [bnb_pairs_eq]; exact h.2⟩

/-- C3 (amended): for every odd `n` the solver raises no error — it runs
the search, never reaches a complete pairing, and returns the initial
sentinel score `-1e9` together with an empty pairing (no partial pairing
is leaked). -/
theorem odd_n_no_error_sentinel (comp : ℕ → ℕ → ℚ) (n : ℕ) (hodd : Odd n) :
    (branch_and_bound_numba comp n).1 = initBest ∧
    (branch_and_bound_numba comp n).2.1 = [] := by
  have h := search_odd_unchanged comp n (fullMask n) (fullMask_lt n)
    (by rw [maskCard_fullMask]; exact hodd) 0 []
    { bestScore := initBest, bestPairs := [], memo := [], allocations := 0 }
  exact ⟨by rw [branch_and_bound_numba_bestScore]; exact h.1,
    by rw [bnb_pairs_eq]; exact h.2⟩

theorem odd_n_no_error_sentinel_witness :
    Odd 1 ∧ ((branch_and_bound_numba zeroMat 1).1 = initBest ∧
      (branch_and_bound_numba zeroMat 1).2.1 = []) :=
  ⟨by decide, odd_n_no_error_sentinel zeroMat 1 (by decide)⟩

/-- C4 (counterexample): the tracked best score is initialised to the
finite value `-1e9`, not `-infinity`.  For the even input `n = 2` whose
single pairing scores exactly `-1e9`, the first (and only) complete
pairing reached by the search does not strictly exceed the initial best,
so nothing is ever recorded: the solver returns the sentinel `-1e9` and
an empty pairing. -/
theorem neg_weights_not_recorded_counterexample :
    (branch_and_bound_numba negMat 2).2.1 = [] ∧
    (branch_and_bound_numba negMat 2).1 = initBest := by
  have hsym : Symm negMat 2 := fun i _ j _ => rfl
  have hcoe := branch_and_bound_numba_coe_bestScore negMat 2 hsym
  have hfm : fullMask 2 = 3 := by norm_num [fullMask]
  rw [hfm, opt_negMat_three] at hcoe
  have hval : ((0 : ℚ) : WithBot ℚ) + ((initBest : ℚ) : WithBot ℚ) =
      ((initBest : ℚ) : WithBot ℚ) := by
    rw [← WithBot.coe_add, zero_add]
  rw [hval, max_self] at hcoe
  have hbest : (branch_and_bound_numba negMat 2).1 = initBest := WithBot.coe_inj.mp hcoe
  refine ⟨?_, hbest⟩
  by_contra hne
  rw [bnb_pairs_eq] at hne
  have hm := search_best_mono negMat 2 (fullMask 2) 0 []
    { bestScore := initBest, bestPairs := [], memo := [], allocations := 0 }
  have hlt2 : initBest < (branch_and_bound_numba negMat 2).1 := hm.2 hne
  rw [hbest] at hlt2
  exact lt_irrefl initBest hlt2

/-- C4 (amended): the entry point initialises the tracked best score to
the finite sentinel `-1e9` (not `-infinity`).  For every even-`n` input
whose weights are all non-negative, every complete pairing scores at
least `0 > -1e9`, so the first complete pairing reached strictly exceeds
the initial best and a complete pairing is recorded in the
Best-Solution tracker. -/
theorem init_sentinel_records_amended (comp : ℕ → ℕ → ℚ) (n : ℕ) (heven : Even n)
    (hsym : Symm comp n) (hnn : Nonneg comp n) :
    initBest = -(10 ^ 9 : ℚ) ∧
    0 ≤ (branch_and_bound_numba comp n).1 ∧
    initBest < (branch_and_bound_numba comp n).1 ∧
    IsPairingOf (branch_and_bound_numba comp n).2.1 (fullMask n) = true :=
  ⟨rfl, bnb_best_nonneg comp n heven hsym hnn,
    lt_of_lt_of_le initBest_neg (bnb_best_nonneg comp n heven hsym hnn),
    bnb_isPairing comp n heven hsym hnn⟩

theorem init_sentinel_records_amended_witness :
    Even 2 ∧ Symm oneMat 2 ∧ Nonneg oneMat 2 ∧
    (initBest = -(10 ^ 9 : ℚ) ∧
      0 ≤ (branch_and_bound_numba oneMat 2).1 ∧
      initBest < (branch_and_bound_numba oneMat 2).1 ∧
      IsPairingOf (branch_and_bound_numba oneMat 2).2.1 (fullMask 2) = true) :=
  ⟨by decide, fun i _ j _ => rfl, fun i _ j _ => by norm_num [oneMat],
    init_sentinel_records_amended oneMat 2 (by decide) (fun i _ j _ => rfl)
      (fun i _ j _ => by norm_num [oneMat])⟩

/-- C5: for every even `n ≥ 2` and symmetric non-negative weight matrix,
the pairing returned by `branch_and_bound_numba` is a perfect matching:
every student id below `n` occurs in exactly one returned pair, and no
pair repeats an id. -/
theorem bnb_pairing_perfect_matching (comp : ℕ → ℕ → ℚ) (n : ℕ) (heven : Even n)
    (hn2 : 2 ≤ n) (hsym : Symm comp n) (hnn : Nonneg comp n) :
    (∀ k, k < n → idCount k (branch_and_bound_numba comp n).2.1 = 1) ∧
    (∀ p, p ∈ (branch_and_bound_numba comp n).2.1 → p.1 ≠ p.2) := by
  have hp := bnb_isPairing comp n heven hsym hnn
  refine ⟨fun k hk => ?_, isPairingOf_ne _ _ hp⟩
  rw [idCount_of_isPairingOf _ _ hp k, testBit_fullMask]
  simp [hk]

theorem bnb_pairing_perfect_matching_witness :
    Even 2 ∧ 2 ≤ 2 ∧ Symm oneMat 2 ∧ Nonneg oneMat 2 ∧
    ((∀ k, k < 2 → idCount k (branch_and_bound_numba oneMat 2).2.1 = 1) ∧
      (∀ p, p ∈ (branch_and_bound_numba oneMat 2).2.1 → p.1 ≠ p.2)) :=
  ⟨by decide, by decide, fun i _ j _ => rfl, fun i _ j _ => by norm_num [oneMat],
    bnb_pairing_perfect_matching oneMat 2 (by decide) (by decide)
      (fun i _ j _ => rfl) (fun i _ j _ => by norm_num [oneMat])⟩

/-- C6: the solver is deterministic — two invocations of
`branch_and_bound_numba` on identical inputs return identical best
score, best pairing (same pairs in the same order) and counter.  In the
embedding the solver is a pure function of its input: the source
contains no randomness, no time or environment dependence, and iterates
its containers in fixed order, so equal inputs give equal outputs. -/
theorem bnb_deterministic (comp comp2 : ℕ → ℕ → ℚ) (n n2 : ℕ)
    (hc : comp = comp2) (hn : n = n2) :
    branch_and_bound_numba comp n = branch_and_bound_numba comp2 n2 := by
  subst hc
  subst hn
  rfl

theorem bnb_deterministic_witness :
    zeroMat = zeroMat ∧ (2 : ℕ) = 2 ∧
    branch_and_bound_numba zeroMat 2 = branch_and_bound_numba zeroMat 2 :=
  ⟨rfl, rfl, bnb_deterministic zeroMat zeroMat 2 2 rfl rfl⟩

/-- C7: for every even `n`, every state on which the branch-and-bound
search can be recursively invoked starting from the full state (the
family `Reachable`, which follows the pivot/candidate structure of
`search` and over-approximates the actually-invoked states since pruning
only removes calls) has an even number of unmatched students: each
expansion removes exactly the pivot and its partner. -/
theorem reachable_state_even_card (comp : ℕ → ℕ → ℚ) (n : ℕ) (heven : Even n)
    (mask : ℕ) (hr : Reachable comp n mask) : Even (maskCard n mask) :=
  reachable_even comp n heven mask hr

theorem reachable_state_even_card_witness :
    Even 2 ∧ Even (maskCard 2 (fullMask 2)) :=
  ⟨by decide, reachable_state_even_card zeroMat 2 (by decide) (fullMask 2) Reachable.init⟩

/-- C8: for every matrix and even `n`, the node-expansion counter
returned by the branch-and-bound solver never exceeds the enumeration
counter returned by the exhaustive oracle on the same input. -/
theorem bnb_allocations_le_exhaustive (comp : ℕ → ℕ → ℚ) (n : ℕ) (heven : Even n) :
    (branch_and_bound_numba comp n).2.2 ≤ (exhaustive_search_wrapper comp n).2.2 := by
  have h1 := search_alloc_le comp n (fullMask n) (fullMask_lt n) 0 []
    { bestScore := initBest, bestPairs := [], memo := [], allocations := 0 }
  have h2 := exh_alloc comp n (fullMask n) 0 []
    { bestScore := initBest, bestPairs := [], allocations := 0 }
  rw [bnb_alloc_eq]
  have h3 : (exhaustive_search_wrapper comp n).2.2 =
      (exhaustive_search comp n (fullMask n) 0 []
        { bestScore := initBest, bestPairs := [], allocations := 0 }).allocations := rfl
  rw [h3, h2]
  exact h1

theorem bnb_allocations_le_exhaustive_witness :
    Even 2 ∧ (branch_and_bound_numba zeroMat 2).2.2 ≤
      (exhaustive_search_wrapper zeroMat 2).2.2 :=
  ⟨by decide, bnb_allocations_le_exhaustive zeroMat 2 (by decide)⟩

/-- C9: for `n = 0` the solver returns score `0` and an empty pairing
(the vacuously optimal perfect matching); being a total function, it
raises no error. -/
theorem n_zero_trivial_success (comp : ℕ → ℕ → ℚ) :
    (branch_and_bound_numba comp 0).1 = 0 ∧
    (branch_and_bound_numba comp 0).2.1 = [] := by
  have hfm : fullMask 0 = 0 := by norm_num [fullMask]
  constructor
  · rw [branch_and_bound_numba_bestScore, hfm, search_zero]
    split_ifs with h
    · rfl
    · exact absurd initBest_neg h
  · rw [bnb_pairs_eq, hfm, search_zero]
    split_ifs with h
    · rfl
    · exact absurd initBest_neg h

/-- C10 (counterexample): under the modulo-`2^64` wrap model of
`np.int64`, the full mask built for `n = 64` wraps to the all-ones
64-bit pattern, which still contains every entity id in `[0, 64)`: the
state representation is still correct at `n = 64`, contradicting the
claim that it is correct only for `n ≤ 63` and that it no longer
represents the full entity set for every `n ≥ 64`. -/
theorem fullMask64_boundary_counterexample :
    (List.range 64).all (fun k => (fullMask64 64).testBit k) = true := by
  decide

/-- C10 (amended): the wrapped `np.int64` full mask
`fullMask64 n = ((1 <<< n) - 1) % 2^64` contains all `n` entity ids
exactly when `n ≤ 64`; from `n = 65` on, the wrapped mask equals
`2^64 - 1` and entity `64` (and beyond) is missing. -/
theorem fullMask64_represents_iff_amended (n : ℕ) :
    ((List.range n).all (fun k => (fullMask64 n).testBit k) = true) ↔ n ≤ 64 := by
  rw [List.all_eq_true]
  constructor
  · intro h
    by_contra hn
    have h64 : (64 : ℕ) ∈ List.range n := List.mem_range.mpr (by omega)
    have hb := h 64 h64
    rw [fullMask64_eq, if_neg hn, Nat.testBit_two_pow_sub_one] at hb
    simp at hb
  · intro hn k hk
    rw [List.mem_range] at hk
    rw [fullMask64_eq, if_pos hn, Nat.testBit_two_pow_sub_one]
    simp [hk]

theorem fullMask64_represents_iff_amended_witness :
    (List.range 64).all (fun k => (fullMask64 64).testBit k) = true ∧
    ¬((List.range 65).all (fun k => (fullMask64 65).testBit k) = true) :=
  ⟨(fullMask64_represents_iff_amended 64).mpr (by decide),
    fun h => absurd ((fullMask64_represents_iff_amended 65).mp h) (by decide)⟩
